import Mathlib

/-!
# String interning with a shared pool (`lstring.c`)

A shallow embedding of the string table of `lstring.c` and of its process-wide shared
short-string map (`SSM`), followed by theorems about the two-tier interning protocol.

Conventions of the embedding:

* a `TString` object is a record; its identity (the C pointer) is the field `addr`;
* a bucket chain (`u.hnext` links ending in `NULL`) is the list of its objects, head first;
* a bucket array (`TString **`, `shrmap_slot h[]`) is a map from indices to chains;
* `unsigned int` is a natural number reduced modulo `2^32`, `lu_byte` modulo `2^8`;
* the execution is sequential, so the per-slot reader/writer locks do not appear;
* code that raises a memory error or dereferences `NULL` returns `none`.
-/

namespace LString

/-! ## Objects and states -/

/-- One `char` of a string, as its unsigned value (`cast_byte`). -/
abbrev Byte := Fin 256

/-- Modelled from the spec: the tag of short-string objects (`lobject.h` is not part of
the sources; 4 is its stock value). -/
def LUA_VSHRSTR : Nat := 4

/-- Modelled from the spec: the tag of long-string objects (`lobject.h` is not part of
the sources; 20 is its stock value). -/
def LUA_VLNGSTR : Nat := 20

/-- Modelled from the spec: the short-string entry of the data model (the declaration of
`TString` in `lobject.h` is not part of the sources); the fields are the ones that
`lstring.c` reads and writes. `addr` is the address of the object; the link `u.hnext` is
the tail of the chain the object sits in; `str` is the content behind `getstr`. -/
structure TString where
  addr : Nat
  tt : Nat
  marked : Nat
  extra : Nat
  shrlen : Nat
  isglobal : Nat
  hash : Nat
  lnglen : Nat
  str : List Byte
deriving DecidableEq, Repr

/-- Modelled from the spec: the instance table of the data model (`lstate.h` is not part
of the sources): bucket array `hash`, number of elements `nuse`, `size`. -/
structure stringtable where
  hash : Nat → List TString
  nuse : Int
  size : Nat

/-- Modelled from the spec: the instance (`lstate.h` is not part of the sources), reduced
to the fields that the string table code uses: the table, the hash seed and the current
white of the collector. -/
structure global_State where
  strt : stringtable
  seed : Nat
  currentwhite : Nat

/-- The shared map `SSM`: the chains of the slots and the promotion budget `n`. -/
structure shrmap where
  h : Nat → List TString
  n : Int

/-- Process-wide state: the shared map and the C heap. Every allocation returns the
fresh address `brk`; `freed` records the addresses handed to `free`. -/
structure Process where
  SSM : shrmap
  brk : Nat
  freed : List Nat

/-- Outcomes of the external collaborators during one call: whether the reallocation of
the bucket array succeeds and what the new, uninitialised slots hold, whether the
collector's allocation (`luaC_newobj`) and `malloc` succeed, and what a full collection
(`luaC_fullgc`) does to the instance. -/
structure Env where
  realloc_ok : Bool
  junk : Nat → List TString
  newobj_ok : Bool
  malloc_ok : Bool
  fullgc : global_State → global_State

/-! ## Constants and macros -/

/-- Modelled from the spec: the fixed short-string length bound (`llimits.h` is not part
of the sources; 40 is its stock value). -/
def LUAI_MAXSHORTLEN : Nat := 40

/-- Modelled from the spec: the largest `int` (`llimits.h` is not part of the sources). -/
def MAX_INT : Nat := 2147483647

/-- Maximum size for the string table: `luaM_limitN(MAX_INT, TString*)`, which is
`MAX_INT` when `size_t` has 64 bits. -/
def MAXSTRTB : Nat := MAX_INT

/-- Number of slots of the shared map. -/
def SHRSTR_SLOT : Nat := 0x10000

/-- Slot of a hash in the shared map. -/
def HASH_NODE (h : Nat) : Nat := h % SHRSTR_SLOT

/-- Modelled from the spec: the bucket index of a hash in a table of the given size,
"index = hash mod size" (the macro `lmod` is not part of the sources). -/
def lmod (s size : Nat) : Nat := s % size

/-- Modelled from the spec: the two white bits of the liveness colour (`lgc.h` is not
part of the sources; bits 3 and 4 are its stock values). -/
def WHITEBITS : Nat := 24

/-- Modelled from the spec: the liveness query of the collector interface (`lgc.h` is
not part of the sources): an object is dead when it carries the white that is not the
current one. -/
def isdead (g : global_State) (ts : TString) : Bool :=
  (ts.marked &&& (g.currentwhite ^^^ WHITEBITS)) != 0

/-- Modelled from the spec: the liveness flip of the collector interface: the colour of
the object is switched to the other white. -/
def changewhite (ts : TString) : TString :=
  { ts with marked := ts.marked ^^^ WHITEBITS }

/-- The test `memcmp(a, b, n) == 0`. -/
def memcmp0 (a b : List Byte) (n : Nat) : Bool :=
  a.take n == b.take n

/-- Write `v` into slot `i` of a bucket array. -/
def setslot (vect : Nat → List TString) (i : Nat) (v : List TString) : Nat → List TString :=
  fun j => if j = i then v else vect j

/-! ## Hashing -/

/-- The loop of `luaS_hash`: `for (; l > 0; l--) h ^= ((h<<5) + (h>>2) + str[l - 1])`. -/
def luaS_hash_loop (str : List Byte) : Nat → Nat → Nat
  | 0, h => h
  | l + 1, h =>
    luaS_hash_loop str l (h ^^^ (((h <<< 5) + (h >>> 2) + (str.getD l 0).val) % 2 ^ 32))

/-- The hash `luaS_hash (str, l, seed)`. -/
def luaS_hash (str : List Byte) (l : Nat) (seed : Nat) : Nat :=
  luaS_hash_loop str l (seed ^^^ (l % 2 ^ 32))

/-! ## The instance table -/

/-- The inner loop of `tablerehash`: every object of the chain `p` is pushed on the
bucket of its hash for the size `nsize`. -/
def rehashchain (nsize : Nat) : List TString → (Nat → List TString) → Nat → List TString
  | [], vect => vect
  | p :: hnext, vect =>
    let h := lmod p.hash nsize
    rehashchain nsize hnext (setslot vect h (p :: vect h))

/-- The rehash `tablerehash (vect, osize, nsize)`: clear the new slots, then rehash the
old part of the array. -/
def tablerehash (vect : Nat → List TString) (osize nsize : Nat) : Nat → List TString :=
  let vect1 := (List.range' osize (nsize - osize)).foldl (fun v i => setslot v i []) vect
  (List.range osize).foldl (fun v i => rehashchain nsize (v i) (setslot v i [])) vect1

/-- The reallocation `luaM_reallocvector (L, v, osize, nsize, TString*)`: on success the
common part is kept and the rest is uninitialised. -/
def luaM_reallocvector (e : Env) (vect : Nat → List TString) (osize nsize : Nat) :
    Option (Nat → List TString) :=
  if e.realloc_ok then
    some (fun i => if i < min osize nsize then vect i else e.junk i)
  else none

/-- Resize the string table. If allocation fails, keep the current size. -/
def luaS_resize (e : Env) (g : global_State) (nsize : Nat) : global_State :=
  let tb := g.strt
  let osize := tb.size
  let vect := if nsize < osize then tablerehash tb.hash osize nsize else tb.hash
  match luaM_reallocvector e vect osize nsize with
  | none =>
    if nsize < osize then
      { g with strt := { tb with hash := tablerehash vect nsize osize } }
    else g
  | some newvect =>
    { g with strt :=
        { hash := if nsize > osize then tablerehash newvect osize nsize else newvect
          nuse := tb.nuse
          size := nsize } }

/-- The allocation `luaC_newobj` followed by the stores of `createstrobj`. -/
def createstrobj (e : Env) (g : global_State) (w : Process) (tag : Nat) (h : Nat) :
    Option (Process × TString) :=
  if e.newobj_ok then
    some ({ w with brk := w.brk + 1 },
      { addr := w.brk, tt := tag, marked := g.currentwhite &&& WHITEBITS, extra := 0,
        shrlen := 0, isglobal := 0, hash := h, lnglen := 0, str := [] })
  else none

/-- The growth step `growstrtab`. -/
def growstrtab (e : Env) (g : global_State) : Option global_State :=
  let g1 : Option global_State :=
    if g.strt.nuse = MAX_INT then
      let g' := e.fullgc g
      if g'.strt.nuse = MAX_INT then none else some g'
    else some g
  g1.map fun g1 =>
    if g1.strt.size ≤ MAXSTRTB / 2 then luaS_resize e g1 (g1.strt.size * 2) else g1

/-- The match test of `queryfromstrt`. -/
def eqshrstr (str : List Byte) (l : Nat) (ts : TString) : Bool :=
  l == ts.shrlen && memcmp0 str ts.str l

/-- The walk of `queryfromstrt` along one chain: the chain afterwards and the hit. -/
def querychain (g : global_State) (str : List Byte) (l : Nat) :
    List TString → List TString × Option TString
  | [] => ([], none)
  | ts :: hnext =>
    if eqshrstr str l ts then
      if isdead g ts then (changewhite ts :: hnext, some (changewhite ts))
      else (ts :: hnext, some ts)
    else
      let r := querychain g str l hnext
      (ts :: r.1, r.2)

/-- Lookup in the instance table: `queryfromstrt (L, str, l, h)`. -/
def queryfromstrt (g : global_State) (str : List Byte) (l : Nat) (h : Nat) :
    global_State × Option TString :=
  let list := lmod h g.strt.size
  let r := querychain g str l (g.strt.hash list)
  ({ g with strt := { g.strt with hash := setslot g.strt.hash list r.1 } }, r.2)

/-- Insert in the instance table: `addtostrt (L, str, l, h)`. -/
def addtostrt (e : Env) (g : global_State) (w : Process) (str : List Byte) (l : Nat)
    (h : Nat) : Option (global_State × Process × TString) :=
  let g1 : Option global_State :=
    if g.strt.nuse ≥ (g.strt.size : Int) then growstrtab e g else some g
  g1.bind fun g1 =>
    let list := lmod h g1.strt.size
    (createstrobj e g1 w LUA_VSHRSTR h).map fun r =>
      let ts : TString :=
        { r.2 with str := str.take l, shrlen := l % 256, isglobal := 0 }
      ({ g1 with strt :=
          { hash := setslot g1.strt.hash list (ts :: g1.strt.hash list)
            nuse := g1.strt.nuse + 1
            size := g1.strt.size } },
        r.1, ts)

/-! ## The shared map -/

/-- Initialise the shared map: only the locks of the slots are initialised. -/
def luaS_initssm (w : Process) : Process := w

/-- Expand the promotion budget: `__sync_add_and_fetch (&SSM.n, n)` on an `int`. -/
def luaS_expandssm (w : Process) (n : Int) : Process :=
  { w with SSM := { w.SSM with n := (w.SSM.n + n + 2 ^ 31) % 2 ^ 32 - 2 ^ 31 } }

/-- Tear the shared map down: every object of every chain is freed; the slots
themselves are not written. -/
def luaS_exitssm (w : Process) : Process :=
  let fr := (List.range SHRSTR_SLOT).foldl
    (fun fr i => (w.SSM.h i).foldl (fun fr ts => ts.addr :: fr) fr) w.freed
  { w with freed := fr }

/-- The diagnostics `luaS_ssminfo`: the three pushed integers (number of strings, total
size, remaining budget); the two counters are `unsigned int`. -/
def luaS_ssminfo (w : Process) : Nat × Nat × Int :=
  let r := (List.range SHRSTR_SLOT).foldl
    (fun acc i => (w.SSM.h i).foldl
      (fun a ts => ((a.1 + 1) % 2 ^ 32, (a.2 + ts.shrlen) % 2 ^ 32)) acc) (0, 0)
  (r.1, r.2, w.SSM.n)

/-- The candidate object of the shared map: `newstring (h, str, l)`. -/
def newstring (e : Env) (w : Process) (h : Nat) (str : List Byte) (l : Nat) :
    Option (Process × TString) :=
  if e.malloc_ok then
    some ({ w with brk := w.brk + 1 },
      { addr := w.brk, tt := LUA_VSHRSTR, marked := 0, extra := 0, shrlen := l % 256,
        isglobal := 1, hash := h, lnglen := 0, str := str.take l })
  else none

/-- The match test of `addtossm` and `queryfromssm`. -/
def eqssmstr (h : Nat) (str : List Byte) (l : Nat) (ts : TString) : Bool :=
  ts.hash == h && ts.shrlen == l && memcmp0 str ts.str l

/-- Insert in the shared map unless an equal string is there: `addtossm (h, str, l)`. -/
def addtossm (e : Env) (w : Process) (h : Nat) (str : List Byte) (l : Nat) :
    Option (Process × TString) :=
  (newstring e w h str l).map fun r =>
    let w1 := r.1
    let tmp := r.2
    let s := HASH_NODE h
    match (w1.SSM.h s).find? (eqssmstr h str l) with
    | some ts => ({ w1 with freed := tmp.addr :: w1.freed }, ts)
    | none => ({ w1 with SSM := { w1.SSM with h := setslot w1.SSM.h s (tmp :: w1.SSM.h s) } }, tmp)

/-- Lookup in the shared map: `queryfromssm (h, str, l)`. -/
def queryfromssm (w : Process) (h : Nat) (str : List Byte) (l : Nat) : Option TString :=
  (w.SSM.h (HASH_NODE h)).find? (eqssmstr h str l)

/-! ## The interning protocol -/

/-- Intern a short string: `internshrstr (L, str, l)`. -/
def internshrstr (e : Env) (g : global_State) (w : Process) (str : List Byte) (l : Nat) :
    Option (global_State × Process × TString) :=
  let h := luaS_hash str l g.seed
  match queryfromstrt g str l h with
  | (g1, some ts) => some (g1, w, ts)
  | (g1, none) =>
    let h0 := luaS_hash str l 0
    match queryfromssm w h str l with
    | some ts => some (g1, w, ts)
    | none =>
      if w.SSM.n > 0 then
        (addtossm e { w with SSM := { w.SSM with n := w.SSM.n - 1 } } h0 str l).map
          fun r => (g1, r.1, r.2)
      else
        addtostrt e g1 w str l h

/-! ## Removal from the instance table -/

/-- The walk of `luaS_remove` along one chain: `while (*p != ts) p = &(*p)->u.hnext;`
followed by `*p = (*p)->u.hnext`. Objects are compared by address; reaching the end of
the chain dereferences `NULL`. -/
def removechain (ts : TString) : List TString → Option (List TString)
  | [] => none
  | x :: hnext =>
    if x.addr = ts.addr then some hnext
    else (removechain ts hnext).map fun c => x :: c

/-- Remove an object from the instance table: `luaS_remove (L, ts)`. -/
def luaS_remove (g : global_State) (ts : TString) : Option global_State :=
  let i := lmod ts.hash g.strt.size
  (removechain ts (g.strt.hash i)).map fun c =>
    { g with strt :=
        { hash := setslot g.strt.hash i c
          nuse := g.strt.nuse - 1
          size := g.strt.size } }

/-! ## Long strings -/

/-- Equality for long strings: `luaS_eqlngstr (a, b)`; `a == b` compares addresses. -/
def luaS_eqlngstr (a b : TString) : Bool :=
  a.addr == b.addr || (a.lnglen == b.lnglen && memcmp0 a.str b.str a.lnglen)

/-- The memoised hash of a long string: `luaS_hashlongstr (ts)`, as the object
afterwards and the returned hash. -/
def luaS_hashlongstr (ts : TString) : TString × Nat :=
  if ts.extra = 0 then
    let h := luaS_hash ts.str ts.lnglen ts.hash
    ({ ts with hash := h, extra := 1 }, h)
  else (ts, ts.hash)

/-- Create a long-string object: `luaS_createlngstrobj (L, l)`; the hash field holds
the seed until the hash is asked for. -/
def luaS_createlngstrobj (e : Env) (g : global_State) (w : Process) (l : Nat) :
    Option (Process × TString) :=
  (createstrobj e g w LUA_VLNGSTR g.seed).map fun r => (r.1, { r.2 with lnglen := l })

/-! ## Notions used in the statements -/

/-- What a lookup hit does to the object it returns: a dead object is resurrected. -/
def resurrect (g : global_State) (ts : TString) : TString :=
  if isdead g ts then changewhite ts else ts

/-- Sum of a measure of the chains over the first `N` slots of a bucket array. -/
def total (F : List TString → Nat) (vect : Nat → List TString) (N : Nat) : Nat :=
  ((List.range N).map (fun i => F (vect i))).sum

/-- All objects of the first `N` slots of a bucket array, slot by slot. -/
def entries (vect : Nat → List TString) (N : Nat) : List TString :=
  (List.range N).flatMap vect

/-- Number of objects in the shared map (walk over all slots). -/
def ssmcount (w : Process) : Nat :=
  total List.length w.SSM.h SHRSTR_SLOT

/-- No object of the instance table holds the bytes `str`. -/
def StrtAbsent (g : global_State) (str : List Byte) : Prop :=
  ∀ i, i < g.strt.size → ∀ ts ∈ g.strt.hash i, eqshrstr str str.length ts = false

/-- No object of the shared map holds the bytes `str`. -/
def PoolAbsent (w : Process) (str : List Byte) : Prop :=
  ∀ i, i < SHRSTR_SLOT → ∀ ts ∈ w.SSM.h i, eqshrstr str str.length ts = false

/-- No memory error is raised while a new object is inserted into the instance table:
the collector's allocation succeeds, and a table with `MAX_INT` elements is relieved by
the full collection. -/
def NoMemError (e : Env) (g : global_State) : Prop :=
  e.newobj_ok = true ∧ (g.strt.nuse = MAX_INT → (e.fullgc g).strt.nuse ≠ MAX_INT)

/-- The object that `newstring (h, str, l)` builds at the address `a`. -/
def ssmobj (a h : Nat) (str : List Byte) (l : Nat) : TString :=
  { addr := a, tt := LUA_VSHRSTR, marked := 0, extra := 0, shrlen := l % 256,
    isglobal := 1, hash := h, lnglen := 0, str := str.take l }

/-- The process after a promotion: the budget is decremented and the new object is the
head of its slot. -/
def promoted (w : Process) (str : List Byte) (l : Nat) : Process :=
  let h0 := luaS_hash str l 0
  { SSM := { h := setslot w.SSM.h (HASH_NODE h0)
                    (ssmobj w.brk h0 str l :: w.SSM.h (HASH_NODE h0))
             n := w.SSM.n - 1 }
    brk := w.brk + 1
    freed := w.freed }

/-- Collaborators that never fail: allocations succeed, new slots hold no chain, and a
full collection leaves the instance as it is. -/
def envOk : Env :=
  { realloc_ok := true, junk := fun _ => [], newobj_ok := true, malloc_ok := true,
    fullgc := fun g => g }

/-- Collaborators whose reallocation of the bucket array fails. -/
def envNoRealloc : Env :=
  { realloc_ok := false, junk := fun _ => [], newobj_ok := true, malloc_ok := true,
    fullgc := fun g => g }

/-- A fresh instance with the given hash seed: an empty table of 128 slots. -/
def freshInstance (seed : Nat) : global_State :=
  { strt := { hash := fun _ => [], nuse := 0, size := 128 }, seed := seed, currentwhite := 8 }

/-- A fresh process with the given promotion budget: an empty shared map. -/
def freshProcess (n : Int) : Process :=
  { SSM := { h := fun _ => [], n := n }, brk := 0, freed := [] }

/-- The bytes of "a". -/
def strA : List Byte := [97]

/-- The bytes of "bar". -/
def strBar : List Byte := [98, 97, 114]

/-- The bytes of "foo". -/
def strFoo : List Byte := [102, 111, 111]

/-- The object that `addtostrt (L, str, l, h)` builds at the address `a` in the
instance `g1`. -/
def strtobj (g1 : global_State) (a h : Nat) (str : List Byte) (l : Nat) : TString :=
  { addr := a, tt := LUA_VSHRSTR, marked := g1.currentwhite &&& WHITEBITS, extra := 0,
    shrlen := l % 256, isglobal := 0, hash := h, lnglen := 0, str := str.take l }

/-- The instance `g1` after `ts` has been linked as the head of the bucket of `h`. -/
def linked (g1 : global_State) (h : Nat) (ts : TString) : global_State :=
  { g1 with strt :=
      { hash := setslot g1.strt.hash (lmod h g1.strt.size)
          (ts :: g1.strt.hash (lmod h g1.strt.size))
        nuse := g1.strt.nuse + 1
        size := g1.strt.size } }

/-- An instance with seed 1 whose table holds "foo" (at address 0). -/
def instanceFoo : global_State :=
  linked (freshInstance 1) (luaS_hash strFoo 3 1)
    (strtobj (freshInstance 1) 0 (luaS_hash strFoo 3 1) strFoo 3)

/-- A process whose shared map holds "foo" (at address 1), with a budget of 4 left. -/
def processFoo : Process :=
  promoted { SSM := { h := fun _ => [], n := 5 }, brk := 1, freed := [] } strFoo 3

/-- Process states reachable from an empty shared map by interning calls, made by
instances in arbitrary states with arbitrary seeds and collaborators, and by budget
expansions, one after the other. -/
inductive Reachable : Process → Prop
  | empty (n : Int) (brk : Nat) (freed : List Nat) :
      Reachable { SSM := { h := fun _ => [], n := n }, brk := brk, freed := freed }
  | intern {w : Process} (e : Env) (g : global_State) (s : List Byte)
      (g' : global_State) (w' : Process) (ts : TString) :
      Reachable w → s.length ≤ LUAI_MAXSHORTLEN →
      internshrstr e g w s s.length = some (g', w', ts) → Reachable w'
  | expand {w : Process} (n : Int) : Reachable w → Reachable (luaS_expandssm w n)

/-- No two objects of the shared map, in one slot or in two, have the same length and
content. -/
def PoolUnique (w : Process) : Prop :=
  ∀ (i j a b : Nat) (x y : TString), (w.SSM.h i)[a]? = some x → (w.SSM.h j)[b]? = some y →
    x.shrlen = y.shrlen → x.str = y.str → i = j ∧ a = b

/-- Every object of the shared map is filed in the slot of its hash, which is the
seed-0 hash of its content, and no slot holds two objects with the same content. -/
def PoolInv (w : Process) : Prop :=
  (∀ i, ∀ ts ∈ w.SSM.h i,
    ts.hash = luaS_hash ts.str ts.shrlen 0 ∧ HASH_NODE ts.hash = i ∧
      ts.str.length = ts.shrlen) ∧
  (∀ i, (w.SSM.h i).Pairwise (fun a b => ¬ (a.shrlen = b.shrlen ∧ a.str = b.str)))

/-- The process after "bar" and then "foo" have been promoted into an empty shared map
with a budget of 2. -/
def processBarFoo : Process :=
  promoted (promoted (freshProcess 2) strBar 3) strFoo 3

/-- The table invariant on bucket placement: every object reachable from bucket `i` has
`hash mod size = i`. -/
def TableInv (g : global_State) : Prop :=
  ∀ i, i < g.strt.size → ∀ ts ∈ g.strt.hash i, lmod ts.hash g.strt.size = i

/-- Lookup in `g` with the bytes and the hash of `ts`, an object of the collection
`all`, is a hit: it returns an object of `all` that holds the bytes of `ts` (resurrected
if it was dead), and that object is `ts` itself when no other object of `all` holds
these bytes. -/
def Finds (g : global_State) (all : List TString) (ts : TString) : Prop :=
  ∃ ts1, (queryfromstrt g ts.str ts.shrlen ts.hash).2 = some (resurrect g ts1) ∧
    ts1 ∈ all ∧ eqshrstr ts.str ts.shrlen ts1 = true ∧
    ((∀ x ∈ all, eqshrstr ts.str ts.shrlen x = true → x = ts) → ts1 = ts)

/-- An instance-owned one-byte string object at address `a` with hash `h`. -/
def byteobj (a h : Nat) (b : Byte) : TString :=
  { addr := a, tt := LUA_VSHRSTR, marked := 8, extra := 0, shrlen := 1, isglobal := 0,
    hash := h, lnglen := 0, str := [b] }

/-- An instance whose table has 4 buckets and holds three objects: "a" (hash 5) and
"b" (hash 1) in bucket 1, "c" (hash 6) in bucket 2. -/
def instanceFour : global_State :=
  { strt :=
      { hash := fun i =>
          if i = 1 then [byteobj 0 5 97, byteobj 1 1 98]
          else if i = 2 then [byteobj 2 6 99] else []
        nuse := 3
        size := 4 }
    seed := 0
    currentwhite := 8 }

/-- The full instance-table invariant: every object reachable from bucket `i` has
`hash mod size = i`, and the count `nuse` is the number of objects reachable by walking
all buckets. -/
def StrtInv (g : global_State) : Prop :=
  TableInv g ∧ g.strt.nuse = ((entries g.strt.hash g.strt.size).length : Int)

/-- The instance after the growth step at the start of `addtostrt`, for a table whose
count is not `MAX_INT`: the table is resized to twice its size when the count has
reached the size and the size is at most `MAXSTRTB / 2`. -/
def grown (e : Env) (g : global_State) : global_State :=
  if g.strt.nuse ≥ (g.strt.size : Int) then
    if g.strt.size ≤ MAXSTRTB / 2 then luaS_resize e g (g.strt.size * 2) else g
  else g

/-- An instance whose table is full: 2 buckets and two objects, "c" (hash 6) in
bucket 0 and "a" (hash 5) in bucket 1. -/
def instanceTwo : global_State :=
  { strt :=
      { hash := fun i =>
          if i = 0 then [byteobj 2 6 99] else if i = 1 then [byteobj 0 5 97] else []
        nuse := 2
        size := 2 }
    seed := 0
    currentwhite := 8 }

/-- A process with an empty shared map, no budget, and the heap at address `brk`. -/
def processAt (brk : Nat) : Process :=
  { SSM := { h := fun _ => [], n := 0 }, brk := brk, freed := [] }

/-- An instance (current white 8) whose table has 4 buckets; bucket 1 holds "a" and then
a dead "b" (it carries the other white, 16). -/
def instanceDead : global_State :=
  { strt :=
      { hash := fun i =>
          if i = 1 then [byteobj 0 5 97, { byteobj 1 1 98 with marked := 16 }] else []
        nuse := 2
        size := 4 }
    seed := 0
    currentwhite := 8 }

/-- Sequential runs of the budget: from an empty shared map with the budget `b`, any
sequence of interning calls (by instances in any state) and of `luaS_expandssm (n)` calls
with `0 ≤ n` (`n` an `int`). The second index is `b` plus the sum of all expansions. -/
inductive BudgetRun (b : Int) : Process → Int → Prop
  | start (brk : Nat) (freed : List Nat) :
      BudgetRun b { SSM := { h := fun _ => [], n := b }, brk := brk, freed := freed } b
  | intern {w : Process} {G : Int} (e : Env) (g : global_State) (s : List Byte)
      (g' : global_State) (w' : Process) (ts : TString) :
      BudgetRun b w G → s.length ≤ LUAI_MAXSHORTLEN →
      internshrstr e g w s s.length = some (g', w', ts) → BudgetRun b w' G
  | expand {w : Process} {G : Int} (n : Int) :
      BudgetRun b w G → 0 ≤ n → n ≤ (MAX_INT : Int) →
      BudgetRun b (luaS_expandssm w n) (G + n)

/-- The process after "bar" has been promoted with a budget of 1 and the budget has then
been expanded by 2. -/
def processExpanded : Process :=
  luaS_expandssm (promoted (freshProcess 1) strBar 3) 2

/-- The long-string object after `k` successive calls of `luaS_hashlongstr`. -/
def hashcalls : Nat → TString → TString
  | 0, ts => ts
  | k + 1, ts => hashcalls k (luaS_hashlongstr ts).1

/-- A long string of 41 bytes "a" at address `a`, created in an instance with the given
seed and not hashed yet. -/
def longobj (a seed : Nat) : TString :=
  { addr := a, tt := LUA_VLNGSTR, marked := 8, extra := 0, shrlen := 0, isglobal := 0,
    hash := seed, lnglen := 41, str := List.replicate 41 97 }

/-! ## Basic facts about bucket arrays -/

theorem setslot_same (vect : Nat → List TString) (i : Nat) (c : List TString) :
    setslot vect i c i = c := by simp [setslot]

theorem setslot_other (vect : Nat → List TString) (i j : Nat) (c : List TString) (h : j ≠ i) :
    setslot vect i c j = vect j := by simp [setslot, h]

theorem setslot_self (vect : Nat → List TString) (i : Nat) : setslot vect i (vect i) = vect := by
  funext j
  by_cases h : j = i
  · subst h; simp [setslot]
  · simp [setslot, h]

theorem total_setslot_ge (F : List TString → Nat) (vect : Nat → List TString) (i : Nat)
    (c : List TString) (N : Nat) (h : N ≤ i) : total F (setslot vect i c) N = total F vect N := by
  unfold total
  congr 1
  apply List.map_congr_left
  intro j hj
  have : j < N := List.mem_range.mp hj
  rw [setslot_other]; omega

theorem total_succ (F : List TString → Nat) (vect : Nat → List TString) (N : Nat) :
    total F vect (N + 1) = total F vect N + F (vect N) := by
  simp [total, List.range_succ]

theorem total_setslot (F : List TString → Nat) (vect : Nat → List TString) (i : Nat)
    (c : List TString) (N : Nat) (h : i < N) :
    total F (setslot vect i c) N + F (vect i) = total F vect N + F c := by
  induction N with
  | zero => omega
  | succ N ih =>
    rw [total_succ, total_succ]
    by_cases hi : i = N
    · subst hi
      rw [total_setslot_ge F vect i c i (le_refl _), setslot_same]; omega
    · have hlt : i < N := by omega
      have := ih hlt
      rw [setslot_other _ _ _ _ (Ne.symm hi)]; omega

theorem total_empty (F : List TString → Nat) (hF : F [] = 0) (N : Nat) :
    total F (fun _ => []) N = 0 := by
  induction N with
  | zero => rfl
  | succ N ih => rw [total_succ, ih, hF]

/-! ## Lookups -/

theorem querychain_miss (g : global_State) (str : List Byte) (l : Nat) (c : List TString)
    (h : ∀ ts ∈ c, eqshrstr str l ts = false) : querychain g str l c = (c, none) := by
  induction c with
  | nil => rfl
  | cons ts c ih =>
    have h1 : eqshrstr str l ts = false := h ts (List.mem_cons_self _ _)
    have h2 := ih (fun x hx => h x (List.mem_cons_of_mem _ hx))
    simp [querychain, h1, h2]

theorem querychain_snd (g : global_State) (str : List Byte) (l : Nat) (c : List TString) :
    (querychain g str l c).2 = (c.find? (eqshrstr str l)).map (resurrect g) := by
  induction c with
  | nil => rfl
  | cons ts c ih =>
    by_cases h1 : eqshrstr str l ts = true
    · by_cases h2 : isdead g ts = true <;> simp [querychain, h1, h2, resurrect, List.find?]
    · simp only [Bool.not_eq_true] at h1
      simp [querychain, h1, ih, List.find?]

theorem queryfromstrt_miss (g : global_State) (str : List Byte) (l h : Nat)
    (hm : ∀ ts ∈ g.strt.hash (lmod h g.strt.size), eqshrstr str l ts = false) :
    queryfromstrt g str l h = (g, none) := by
  simp only [queryfromstrt, querychain_miss g str l _ hm, setslot_self]

theorem strtAbsent_miss (g : global_State) (str : List Byte) (h : Nat)
    (hsize : 0 < g.strt.size) (ha : StrtAbsent g str) :
    queryfromstrt g str str.length h = (g, none) :=
  queryfromstrt_miss g str str.length h (ha _ (Nat.mod_lt _ hsize))

theorem eqssmstr_eqshrstr (h : Nat) (str : List Byte) (l : Nat) (ts : TString)
    (hm : eqssmstr h str l ts = true) : eqshrstr str l ts = true := by
  simp only [eqssmstr, Bool.and_eq_true, beq_iff_eq] at hm
  simp [eqshrstr, hm.1.2, hm.2]

theorem HASH_NODE_lt (h : Nat) : HASH_NODE h < SHRSTR_SLOT :=
  Nat.mod_lt _ (by decide)

theorem poolAbsent_find (w : Process) (str : List Byte) (h : Nat) (ha : PoolAbsent w str) :
    (w.SSM.h (HASH_NODE h)).find? (eqssmstr h str str.length) = none := by
  rw [List.find?_eq_none]
  intro ts hts hm
  have := ha _ (HASH_NODE_lt h) ts hts
  rw [eqssmstr_eqshrstr h str _ ts hm] at this
  exact Bool.noConfusion this

/-! ## The diagnostics -/

theorem ssminfo_chain (c : List TString) (a : Nat × Nat) :
    ((c.foldl (fun a ts => ((a.1 + 1) % 2 ^ 32, (a.2 + ts.shrlen) % 2 ^ 32)) a).1 % 2 ^ 32
        = (a.1 + c.length) % 2 ^ 32) ∧
    (a.1 < 2 ^ 32 →
      (c.foldl (fun a ts => ((a.1 + 1) % 2 ^ 32, (a.2 + ts.shrlen) % 2 ^ 32)) a).1 < 2 ^ 32) := by
  induction c generalizing a with
  | nil => simp
  | cons ts c ih =>
    simp only [List.foldl_cons, List.length_cons]
    have := ih ((a.1 + 1) % 2 ^ 32, (a.2 + ts.shrlen) % 2 ^ 32)
    constructor
    · rw [this.1]; simp only; omega
    · intro _; exact this.2 (Nat.mod_lt _ (by decide))

theorem ssminfo_slots (vect : Nat → List TString) (N : Nat) :
    (((List.range N).foldl (fun acc i => (vect i).foldl
        (fun a ts => ((a.1 + 1) % 2 ^ 32, (a.2 + ts.shrlen) % 2 ^ 32)) acc) (0, 0)).1 % 2 ^ 32
        = total List.length vect N % 2 ^ 32) ∧
    ((List.range N).foldl (fun acc i => (vect i).foldl
        (fun a ts => ((a.1 + 1) % 2 ^ 32, (a.2 + ts.shrlen) % 2 ^ 32)) acc) (0, 0)).1 < 2 ^ 32 := by
  induction N with
  | zero => simp [total]
  | succ N ih =>
    rw [List.range_succ, List.foldl_append, total_succ]
    simp only [List.foldl_cons, List.foldl_nil]
    have := ssminfo_chain (vect N) ((List.range N).foldl (fun acc i => (vect i).foldl
        (fun a ts => ((a.1 + 1) % 2 ^ 32, (a.2 + ts.shrlen) % 2 ^ 32)) acc) (0, 0))
    constructor
    · rw [this.1]; omega
    · exact this.2 ih.2

theorem ssminfo_count (w : Process) : (luaS_ssminfo w).1 = ssmcount w % 2 ^ 32 := by
  have := ssminfo_slots w.SSM.h SHRSTR_SLOT
  simp only [luaS_ssminfo, ssmcount]
  rw [← this.1, Nat.mod_eq_of_lt this.2]

theorem ssminfo_budget (w : Process) : (luaS_ssminfo w).2.2 = w.SSM.n := rfl

/-! ## The shared map: insertion -/

theorem addtossm_new (e : Env) (w : Process) (h : Nat) (str : List Byte) (l : Nat)
    (hm : e.malloc_ok = true)
    (hf : (w.SSM.h (HASH_NODE h)).find? (eqssmstr h str l) = none) :
    addtossm e w h str l = some
      ({ SSM := { h := setslot w.SSM.h (HASH_NODE h)
                    (ssmobj w.brk h str l :: w.SSM.h (HASH_NODE h))
                  n := w.SSM.n }
         brk := w.brk + 1
         freed := w.freed },
       ssmobj w.brk h str l) := by
  simp [addtossm, newstring, hm, hf, ssmobj]

theorem addtossm_old (e : Env) (w : Process) (h : Nat) (str : List Byte) (l : Nat)
    (ts : TString) (hm : e.malloc_ok = true)
    (hf : (w.SSM.h (HASH_NODE h)).find? (eqssmstr h str l) = some ts) :
    addtossm e w h str l = some
      ({ SSM := w.SSM, brk := w.brk + 1, freed := w.brk :: w.freed }, ts) := by
  simp [addtossm, newstring, hm, hf]

theorem short_mod (s : List Byte) (h : s.length ≤ LUAI_MAXSHORTLEN) :
    s.length % 256 = s.length := by
  have : LUAI_MAXSHORTLEN = 40 := rfl
  omega

theorem intern_promoted (e : Env) (g : global_State) (w : Process) (s : List Byte)
    (hsize : 0 < g.strt.size)
    (hstrt : StrtAbsent g s) (hpool : PoolAbsent w s)
    (hn : 0 < w.SSM.n) (hmalloc : e.malloc_ok = true) :
    internshrstr e g w s s.length
      = some (g, promoted w s s.length, ssmobj w.brk (luaS_hash s s.length 0) s s.length) := by
  have hq : queryfromssm w (luaS_hash s s.length g.seed) s s.length = none :=
    poolAbsent_find w s _ hpool
  have hadd := addtossm_new e { w with SSM := { w.SSM with n := w.SSM.n - 1 } }
    (luaS_hash s s.length 0) s s.length hmalloc (poolAbsent_find w s _ hpool)
  simp only [internshrstr, strtAbsent_miss g s _ hsize hstrt, hq, hn, if_true, hadd,
      Option.map_some', promoted]

theorem ssmcount_promoted (w : Process) (s : List Byte) (l : Nat) :
    ssmcount (promoted w s l) = ssmcount w + 1 := by
  have := total_setslot List.length w.SSM.h (HASH_NODE (luaS_hash s l 0))
      (ssmobj w.brk (luaS_hash s l 0) s l :: w.SSM.h (HASH_NODE (luaS_hash s l 0)))
      SHRSTR_SLOT (HASH_NODE_lt _)
  simp only [ssmcount, List.length_cons, promoted] at this ⊢
  omega

theorem strtAbsent_fresh (seed : Nat) (s : List Byte) : StrtAbsent (freshInstance seed) s := by
  intro i _ ts hts
  exact absurd hts (List.not_mem_nil _)

theorem poolAbsent_fresh (n : Int) (s : List Byte) : PoolAbsent (freshProcess n) s := by
  intro i _ ts hts
  exact absurd hts (List.not_mem_nil _)

theorem ssmcount_fresh (n : Int) : ssmcount (freshProcess n) = 0 :=
  total_empty List.length rfl _

/-! ## The interning protocol -/

/-- C1 (the code departs from the claim): on a fresh instance with hash seed 1, a fresh
shared map and a promotion budget of 1, interning "a" twice in succession returns two
different objects: the first call promotes "a" into the shared map (object at address 0,
`isglobal = 1`), the second call misses it there, because `internshrstr` queries the
shared map with the instance hash while the object is filed under the seed-0 hash, and
creates an instance-owned object (address 1, `isglobal = 0`). -/
theorem intern_twice_differs :
    (internshrstr envOk (freshInstance 1) (freshProcess 1) strA 1).bind
        (fun r1 => (internshrstr envOk r1.1 r1.2.1 strA 1).map
          (fun r2 => (r1.2.2.addr, r1.2.2.isglobal, r2.2.2.addr, r2.2.2.isglobal)))
      = some (0, 1, 1, 0) := by
  decide

/-- C2 (the code departs from the claim): instance A (seed 7) promotes "bar" with a
budget of 1; instance B (seed 1), whose table is empty, then interns "bar" with the
budget at 0. B does not get A's pool object (address 0, `isglobal = 1`) but a new
instance-owned object (address 1, `isglobal = 0`), and B's table count goes from 0 to 1:
the shared map is queried with B's instance hash, not with the seed-0 hash under which
the object is filed. -/
theorem intern_other_instance_misses_pool :
    (internshrstr envOk (freshInstance 7) (freshProcess 1) strBar 3).bind
        (fun r1 => (internshrstr envOk (freshInstance 1) r1.2.1 strBar 3).map
          (fun r2 => (r1.2.2.addr, r1.2.2.isglobal, r1.2.1.SSM.n,
            r2.2.2.addr, r2.2.2.isglobal, r2.1.strt.nuse)))
      = some (0, 1, 0, 1, 0, 1) := by
  decide

theorem ssmobj_match (a : Nat) (s : List Byte) (hlen : s.length ≤ LUAI_MAXSHORTLEN) (h : Nat) :
    eqssmstr h s s.length (ssmobj a h s s.length) = true := by
  simp [eqssmstr, ssmobj, short_mod s hlen, memcmp0]

theorem promoted_mem (w : Process) (s : List Byte) (l i : Nat) (ts : TString)
    (h : ts ∈ (promoted w s l).SSM.h i) :
    ts = ssmobj w.brk (luaS_hash s l 0) s l ∨ ts ∈ w.SSM.h i := by
  simp only [promoted, setslot] at h
  split at h
  · rename_i hi
    subst hi
    rcases List.mem_cons.mp h with h | h
    · exact Or.inl h
    · exact Or.inr h
  · exact Or.inr h

theorem intern_budget_hit (e : Env) (g : global_State) (w : Process) (s : List Byte)
    (ts : TString) (hsize : 0 < g.strt.size) (hstrt : StrtAbsent g s)
    (hq : queryfromssm w (luaS_hash s s.length g.seed) s s.length = none)
    (hn : 0 < w.SSM.n) (hmalloc : e.malloc_ok = true)
    (hfind : (w.SSM.h (HASH_NODE (luaS_hash s s.length 0))).find?
      (eqssmstr (luaS_hash s s.length 0) s s.length) = some ts) :
    internshrstr e g w s s.length
      = some (g, { SSM := { h := w.SSM.h, n := w.SSM.n - 1 }, brk := w.brk + 1,
                   freed := w.brk :: w.freed }, ts) := by
  have hadd := addtossm_old e { w with SSM := { w.SSM with n := w.SSM.n - 1 } }
    (luaS_hash s s.length 0) s s.length ts hmalloc hfind
  simp only [internshrstr, strtAbsent_miss g s _ hsize hstrt, hq, hn, if_true, hadd,
    Option.map_some']

/-- C3: when the bytes `s` of a short string are in neither instance table nor in the
shared map and the promotion budget is at least 2, interning `s` on instance A and then
on instance B (whatever their hash seeds) returns the same pool-owned object both
times. -/
theorem intern_converges (eA eB : Env) (gA gB : global_State) (w : Process) (s : List Byte)
    (hlen : s.length ≤ LUAI_MAXSHORTLEN)
    (hsizeA : 0 < gA.strt.size) (hsizeB : 0 < gB.strt.size)
    (hA : StrtAbsent gA s) (hB : StrtAbsent gB s) (hpool : PoolAbsent w s)
    (hn : 2 ≤ w.SSM.n) (hmA : eA.malloc_ok = true) (hmB : eB.malloc_ok = true) :
    ∃ gA' w1 tsA gB' w2 tsB,
      internshrstr eA gA w s s.length = some (gA', w1, tsA) ∧
      internshrstr eB gB w1 s s.length = some (gB', w2, tsB) ∧
      tsB = tsA ∧ tsB.addr = tsA.addr ∧ tsA.isglobal = 1 ∧
      tsA ∈ w2.SSM.h (HASH_NODE (luaS_hash s s.length 0)) := by
  have h1 := intern_promoted eA gA w s hsizeA hA hpool (by omega) hmA
  have hhead : (promoted w s s.length).SSM.h (HASH_NODE (luaS_hash s s.length 0))
      = ssmobj w.brk (luaS_hash s s.length 0) s s.length
          :: w.SSM.h (HASH_NODE (luaS_hash s s.length 0)) := by
    simp [promoted, setslot_same]
  have h2 : ∃ w2, internshrstr eB gB (promoted w s s.length) s s.length
        = some (gB, w2, ssmobj w.brk (luaS_hash s s.length 0) s s.length) ∧
      w2.SSM.h = (promoted w s s.length).SSM.h := by
    cases hq : queryfromssm (promoted w s s.length) (luaS_hash s s.length gB.seed) s s.length with
    | some ts =>
      have hts : ts = ssmobj w.brk (luaS_hash s s.length 0) s s.length := by
        have hmem := List.mem_of_find?_eq_some hq
        have hmatch := eqssmstr_eqshrstr _ _ _ _ (List.find?_some hq)
        rcases promoted_mem _ _ _ _ _ hmem with h | h
        · exact h
        · rw [hpool _ (HASH_NODE_lt _) ts h] at hmatch
          exact Bool.noConfusion hmatch
      refine ⟨promoted w s s.length, ?_, rfl⟩
      simp only [internshrstr, strtAbsent_miss gB s _ hsizeB hB, hq, hts]
    | none =>
      have hn1 : 0 < (promoted w s s.length).SSM.n := by
        simp only [promoted]; omega
      have hfind : ((promoted w s s.length).SSM.h (HASH_NODE (luaS_hash s s.length 0))).find?
          (eqssmstr (luaS_hash s s.length 0) s s.length)
            = some (ssmobj w.brk (luaS_hash s s.length 0) s s.length) := by
        rw [hhead, List.find?_cons, ssmobj_match _ s hlen]
      exact ⟨_, intern_budget_hit eB gB _ s _ hsizeB hB hq hn1 hmB hfind, rfl⟩
  obtain ⟨w2, h2, hw2⟩ := h2
  refine ⟨_, _, _, gB, w2, _, h1, h2, rfl, rfl, rfl, ?_⟩
  rw [hw2, hhead]
  exact List.mem_cons_self _ _

/-- C3 at a concrete input: two fresh instances with seeds 7 and 1, budget 2, "bar". -/
theorem intern_converges_witness :
    ∃ gA' w1 tsA gB' w2 tsB,
      internshrstr envOk (freshInstance 7) (freshProcess 2) strBar strBar.length
        = some (gA', w1, tsA) ∧
      internshrstr envOk (freshInstance 1) w1 strBar strBar.length = some (gB', w2, tsB) ∧
      tsB = tsA ∧ tsB.addr = tsA.addr ∧ tsA.isglobal = 1 ∧
      tsA ∈ w2.SSM.h (HASH_NODE (luaS_hash strBar strBar.length 0)) :=
  intern_converges envOk envOk (freshInstance 7) (freshInstance 1) (freshProcess 2) strBar
    (by decide) (by decide) (by decide) (strtAbsent_fresh 7 strBar) (strtAbsent_fresh 1 strBar)
    (poolAbsent_fresh 2 strBar) (by decide) rfl rfl

/-- C4: when the bytes `s` of a short string are in neither the instance table nor the
shared map and the promotion budget is positive, interning `s` returns a pool-owned
object (`isglobal = 1`) of length `|s|` and content `s`, which becomes the head of its
slot; the number of objects in the shared map grows by exactly 1 (the count that
`luaS_ssminfo` reports, an `unsigned int`, is incremented), the remaining budget drops
by exactly 1, and the instance is left as it was. -/
theorem intern_promotes (e : Env) (g : global_State) (w : Process) (s : List Byte)
    (hlen : s.length ≤ LUAI_MAXSHORTLEN) (hsize : 0 < g.strt.size)
    (hstrt : StrtAbsent g s) (hpool : PoolAbsent w s)
    (hn : 0 < w.SSM.n) (hmalloc : e.malloc_ok = true) :
    ∃ w' ts, internshrstr e g w s s.length = some (g, w', ts) ∧
      ts.isglobal = 1 ∧ ts.shrlen = s.length ∧ ts.str = s ∧
      w'.SSM.h (HASH_NODE (luaS_hash s s.length 0))
        = ts :: w.SSM.h (HASH_NODE (luaS_hash s s.length 0)) ∧
      ssmcount w' = ssmcount w + 1 ∧
      (luaS_ssminfo w').1 = ((luaS_ssminfo w).1 + 1) % 2 ^ 32 ∧
      (ssmcount w + 1 < 2 ^ 32 → (luaS_ssminfo w').1 = (luaS_ssminfo w).1 + 1) ∧
      (luaS_ssminfo w').2.2 = (luaS_ssminfo w).2.2 - 1 := by
  refine ⟨_, _, intern_promoted e g w s hsize hstrt hpool hn hmalloc, rfl, ?_, ?_, ?_,
    ssmcount_promoted w s _, ?_, ?_, rfl⟩
  · exact short_mod s hlen
  · exact List.take_length s
  · simp [promoted, setslot_same]
  · rw [ssminfo_count, ssminfo_count, ssmcount_promoted]; omega
  · intro hlt
    rw [ssminfo_count, ssminfo_count, ssmcount_promoted]; omega

/-- C4 at a concrete input: a fresh instance with seed 1, an empty shared map with
budget 1, "bar". -/
theorem intern_promotes_witness :
    ∃ w' ts, internshrstr envOk (freshInstance 1) (freshProcess 1) strBar strBar.length
        = some (freshInstance 1, w', ts) ∧
      ts.isglobal = 1 ∧ ts.shrlen = strBar.length ∧ ts.str = strBar ∧
      w'.SSM.h (HASH_NODE (luaS_hash strBar strBar.length 0))
        = ts :: (freshProcess 1).SSM.h (HASH_NODE (luaS_hash strBar strBar.length 0)) ∧
      ssmcount w' = ssmcount (freshProcess 1) + 1 ∧
      (luaS_ssminfo w').1 = ((luaS_ssminfo (freshProcess 1)).1 + 1) % 2 ^ 32 ∧
      (ssmcount (freshProcess 1) + 1 < 2 ^ 32 →
        (luaS_ssminfo w').1 = (luaS_ssminfo (freshProcess 1)).1 + 1) ∧
      (luaS_ssminfo w').2.2 = (luaS_ssminfo (freshProcess 1)).2.2 - 1 :=
  intern_promotes envOk (freshInstance 1) (freshProcess 1) strBar (by decide) (by decide)
    (strtAbsent_fresh 1 strBar) (poolAbsent_fresh 1 strBar) (by decide) rfl

theorem growstrtab_some (e : Env) (g : global_State)
    (h : g.strt.nuse = MAX_INT → (e.fullgc g).strt.nuse ≠ MAX_INT) :
    ∃ g1, growstrtab e g = some g1 := by
  unfold growstrtab
  by_cases h1 : g.strt.nuse = MAX_INT
  · simp [h1, h h1]
  · simp [h1]

theorem addtostrt_some (e : Env) (g : global_State) (w : Process) (str : List Byte)
    (l h : Nat) (hmem : NoMemError e g) :
    ∃ g1 : global_State, addtostrt e g w str l h = some
      (linked g1 h (strtobj g1 w.brk h str l), { w with brk := w.brk + 1 },
        strtobj g1 w.brk h str l) := by
  have hg : ∃ g1, (if g.strt.nuse ≥ (g.strt.size : Int) then growstrtab e g else some g)
      = some g1 := by
    by_cases h1 : g.strt.nuse ≥ (g.strt.size : Int)
    · simp only [h1, if_true]; exact growstrtab_some e g hmem.2
    · simp only [h1, if_false]; exact ⟨g, rfl⟩
  obtain ⟨g1, hg1⟩ := hg
  refine ⟨g1, ?_⟩
  simp only [addtostrt, hg1, Option.some_bind, createstrobj, hmem.1, if_true, Option.map_some',
    linked, strtobj]

/-- C5: when the bytes `s` of a short string are in neither the instance table nor the
shared map and the promotion budget is 0, interning `s` (no memory error being raised)
returns a new instance-owned object (`isglobal = 0`, at the fresh address) holding `s`
with the instance-local hash, linked as the head of the bucket of that hash in the
instance table; the shared map, its budget and its reported count are unchanged. -/
theorem intern_local (e : Env) (g : global_State) (w : Process) (s : List Byte)
    (hlen : s.length ≤ LUAI_MAXSHORTLEN) (hsize : 0 < g.strt.size)
    (hstrt : StrtAbsent g s) (hpool : PoolAbsent w s)
    (hn : w.SSM.n = 0) (hmem : NoMemError e g) :
    ∃ g' w' ts, internshrstr e g w s s.length = some (g', w', ts) ∧
      ts.isglobal = 0 ∧ ts.shrlen = s.length ∧ ts.str = s ∧
      ts.hash = luaS_hash s s.length g.seed ∧ ts.addr = w.brk ∧
      (g'.strt.hash (lmod (luaS_hash s s.length g.seed) g'.strt.size)).head? = some ts ∧
      w'.SSM = w.SSM ∧ (∀ i, w'.SSM.h i = w.SSM.h i) ∧
      luaS_ssminfo w' = luaS_ssminfo w := by
  have hq : queryfromssm w (luaS_hash s s.length g.seed) s s.length = none :=
    poolAbsent_find w s _ hpool
  obtain ⟨g1, hg1⟩ := addtostrt_some e g w s s.length (luaS_hash s s.length g.seed) hmem
  have hn0 : ¬ (w.SSM.n > 0) := by omega
  refine ⟨linked g1 (luaS_hash s s.length g.seed) (strtobj g1 w.brk (luaS_hash s s.length g.seed) s s.length),
    { w with brk := w.brk + 1 }, strtobj g1 w.brk (luaS_hash s s.length g.seed) s s.length,
    ?_, rfl, ?_, ?_, rfl, rfl, ?_, rfl, fun _ => rfl, rfl⟩
  · simp only [internshrstr, strtAbsent_miss g s _ hsize hstrt, hq, hn0, if_false, hg1]
  · exact short_mod s hlen
  · exact List.take_length s
  · simp [linked, setslot_same]

/-- C5 at a concrete input: a fresh instance with seed 1, an empty shared map with
budget 0, "foo". -/
theorem intern_local_witness :
    ∃ g' w' ts, internshrstr envOk (freshInstance 1) (freshProcess 0) strFoo strFoo.length
        = some (g', w', ts) ∧
      ts.isglobal = 0 ∧ ts.shrlen = strFoo.length ∧ ts.str = strFoo ∧
      ts.hash = luaS_hash strFoo strFoo.length (freshInstance 1).seed ∧
      ts.addr = (freshProcess 0).brk ∧
      (g'.strt.hash (lmod (luaS_hash strFoo strFoo.length (freshInstance 1).seed)
        g'.strt.size)).head? = some ts ∧
      w'.SSM = (freshProcess 0).SSM ∧ (∀ i, w'.SSM.h i = (freshProcess 0).SSM.h i) ∧
      luaS_ssminfo w' = luaS_ssminfo (freshProcess 0) :=
  intern_local envOk (freshInstance 1) (freshProcess 0) strFoo (by decide) (by decide)
    (strtAbsent_fresh 1 strFoo) (poolAbsent_fresh 0 strFoo) rfl ⟨rfl, by decide⟩

theorem resurrect_fields (g : global_State) (ts : TString) :
    (resurrect g ts).addr = ts.addr ∧ (resurrect g ts).isglobal = ts.isglobal ∧
    (resurrect g ts).shrlen = ts.shrlen ∧ (resurrect g ts).str = ts.str ∧
    (resurrect g ts).hash = ts.hash := by
  unfold resurrect changewhite
  split <;> simp

theorem queryfromstrt_hit (g : global_State) (str : List Byte) (l h : Nat) (ts0 : TString)
    (hmem : ts0 ∈ g.strt.hash (lmod h g.strt.size)) (hmatch : eqshrstr str l ts0 = true) :
    ∃ ts1, (queryfromstrt g str l h).2 = some (resurrect g ts1) ∧
      ts1 ∈ g.strt.hash (lmod h g.strt.size) ∧ eqshrstr str l ts1 = true ∧
      (g.strt.hash (lmod h g.strt.size)).find? (eqshrstr str l) = some ts1 := by
  have hsome : ((g.strt.hash (lmod h g.strt.size)).find? (eqshrstr str l)).isSome = true :=
    List.find?_isSome.mpr ⟨ts0, hmem, hmatch⟩
  obtain ⟨ts1, h1⟩ := Option.isSome_iff_exists.mp hsome
  refine ⟨ts1, ?_, List.mem_of_find?_eq_some h1, List.find?_some h1, h1⟩
  simp only [queryfromstrt, querychain_snd, h1, Option.map_some']

/-- C6: when the table of instance A holds an object `ts0` for the bytes `s` (in the
bucket of the instance-local hash of `s`), interning `s` on A returns an object of that
bucket holding `s` (resurrected if it was dead), which is `ts0` itself when no other
object of the bucket holds `s`; this is so whatever the shared map contains and whatever
the budget is, and the whole process state (slots, budget, heap) is unchanged. -/
theorem intern_instance_hit (e : Env) (g : global_State) (w : Process) (s : List Byte)
    (ts0 : TString)
    (hmem : ts0 ∈ g.strt.hash (lmod (luaS_hash s s.length g.seed) g.strt.size))
    (hmatch : eqshrstr s s.length ts0 = true) :
    ∃ g' ts1, internshrstr e g w s s.length = some (g', w, resurrect g ts1) ∧
      ts1 ∈ g.strt.hash (lmod (luaS_hash s s.length g.seed) g.strt.size) ∧
      eqshrstr s s.length ts1 = true ∧
      ((∀ x ∈ g.strt.hash (lmod (luaS_hash s s.length g.seed) g.strt.size),
          eqshrstr s s.length x = true → x = ts0) → ts1 = ts0) ∧
      (resurrect g ts1).addr = ts1.addr ∧ (resurrect g ts1).isglobal = ts1.isglobal := by
  obtain ⟨ts1, hq, hm1, hmatch1, _⟩ :=
    queryfromstrt_hit g s s.length (luaS_hash s s.length g.seed) ts0 hmem hmatch
  refine ⟨(queryfromstrt g s s.length (luaS_hash s s.length g.seed)).1, ts1, ?_, hm1, hmatch1,
    fun hu => hu ts1 hm1 hmatch1, (resurrect_fields g ts1).1, (resurrect_fields g ts1).2.1⟩
  unfold internshrstr
  cases hr : queryfromstrt g s s.length (luaS_hash s s.length g.seed) with
  | mk g1 r =>
    rw [hr] at hq
    simp only at hq
    subst hq
    simp only [hr]

/-- C6 at a concrete input: the instance holds "foo", the shared map holds "foo" too and
the budget is 4. -/
theorem intern_instance_hit_witness :
    ∃ g' ts1, internshrstr envOk instanceFoo processFoo strFoo strFoo.length
        = some (g', processFoo, resurrect instanceFoo ts1) ∧
      ts1 ∈ instanceFoo.strt.hash
        (lmod (luaS_hash strFoo strFoo.length instanceFoo.seed) instanceFoo.strt.size) ∧
      eqshrstr strFoo strFoo.length ts1 = true ∧
      ((∀ x ∈ instanceFoo.strt.hash
          (lmod (luaS_hash strFoo strFoo.length instanceFoo.seed) instanceFoo.strt.size),
          eqshrstr strFoo strFoo.length x = true →
            x = strtobj (freshInstance 1) 0 (luaS_hash strFoo 3 1) strFoo 3) →
        ts1 = strtobj (freshInstance 1) 0 (luaS_hash strFoo 3 1) strFoo 3) ∧
      (resurrect instanceFoo ts1).addr = ts1.addr ∧
      (resurrect instanceFoo ts1).isglobal = ts1.isglobal :=
  intern_instance_hit envOk instanceFoo processFoo strFoo
    (strtobj (freshInstance 1) 0 (luaS_hash strFoo 3 1) strFoo 3) (by decide) (by decide)

/-! ## Uniqueness in the shared map -/

theorem addtostrt_pool (e : Env) (g : global_State) (w : Process) (str : List Byte)
    (l h : Nat) (g' : global_State) (w' : Process) (ts : TString)
    (hr : addtostrt e g w str l h = some (g', w', ts)) :
    w' = { w with brk := w.brk + 1 } := by
  unfold addtostrt createstrobj at hr
  simp only [Option.bind_eq_some, Option.map_eq_some'] at hr
  obtain ⟨g1, _, r, hr1, hr2⟩ := hr
  split at hr1
  · injection hr1 with hr1
    subst hr1
    injection hr2 with _ hr2
    injection hr2 with hr2 _
    exact hr2.symm
  · exact Option.noConfusion hr1

theorem intern_pool_step (e : Env) (g : global_State) (w : Process) (s : List Byte) (l : Nat)
    (g' : global_State) (w' : Process) (ts : TString)
    (hr : internshrstr e g w s l = some (g', w', ts)) :
    w'.SSM.h = w.SSM.h ∨
    ((w.SSM.h (HASH_NODE (luaS_hash s l 0))).find? (eqssmstr (luaS_hash s l 0) s l) = none ∧
      w'.SSM.h = setslot w.SSM.h (HASH_NODE (luaS_hash s l 0))
        (ssmobj w.brk (luaS_hash s l 0) s l :: w.SSM.h (HASH_NODE (luaS_hash s l 0)))) := by
  unfold internshrstr at hr
  simp only at hr
  split at hr
  · injection hr with hr
    injection hr with _ hr
    injection hr with hr _
    subst hr; exact Or.inl rfl
  · split at hr
    · injection hr with hr
      injection hr with _ hr
      injection hr with hr _
      subst hr; exact Or.inl rfl
    · split at hr
      · simp only [addtossm, newstring, Option.map_eq_some'] at hr
        obtain ⟨r, hr1, hr2⟩ := hr
        obtain ⟨r0, hr0, hr1⟩ := hr1
        split at hr0
        · injection hr0 with hr0
          subst hr0
          simp only at hr1
          split at hr1
          · subst hr1
            injection hr2 with _ hr2
            injection hr2 with hr2 _
            subst hr2; exact Or.inl rfl
          · rename_i hnone
            subst hr1
            injection hr2 with _ hr2
            injection hr2 with hr2 _
            subst hr2
            exact Or.inr ⟨hnone, rfl⟩
        · exact Option.noConfusion hr0
      · have := addtostrt_pool _ _ _ _ _ _ _ _ _ hr
        subst this; exact Or.inl rfl

theorem poolInv_push (w w' : Process) (s : List Byte) (hlen : s.length ≤ LUAI_MAXSHORTLEN)
    (hinv : PoolInv w)
    (hnone : (w.SSM.h (HASH_NODE (luaS_hash s s.length 0))).find?
      (eqssmstr (luaS_hash s s.length 0) s s.length) = none)
    (hw : w'.SSM.h = setslot w.SSM.h (HASH_NODE (luaS_hash s s.length 0))
      (ssmobj w.brk (luaS_hash s s.length 0) s s.length
        :: w.SSM.h (HASH_NODE (luaS_hash s s.length 0)))) :
    PoolInv w' := by
  have hobj : (ssmobj w.brk (luaS_hash s s.length 0) s s.length).shrlen = s.length :=
    short_mod s hlen
  have hstr : (ssmobj w.brk (luaS_hash s s.length 0) s s.length).str = s := List.take_length s
  constructor
  · intro i ts hts
    rw [hw] at hts
    by_cases hi : i = HASH_NODE (luaS_hash s s.length 0)
    · subst hi
      rw [setslot_same] at hts
      rcases List.mem_cons.mp hts with h | h
      · subst h
        refine ⟨?_, rfl, ?_⟩
        · rw [hobj, hstr]; rfl
        · rw [hobj, hstr]
      · exact hinv.1 _ ts h
    · rw [setslot_other _ _ _ _ hi] at hts
      exact hinv.1 _ ts hts
  · intro i
    rw [hw]
    by_cases hi : i = HASH_NODE (luaS_hash s s.length 0)
    · subst hi
      rw [setslot_same, List.pairwise_cons]
      refine ⟨?_, hinv.2 _⟩
      intro ts hts hsame
      rw [hobj, hstr] at hsame
      have h1 := hinv.1 _ ts hts
      have hm : eqssmstr (luaS_hash s s.length 0) s s.length ts = true := by
        simp only [eqssmstr, Bool.and_eq_true, beq_iff_eq, memcmp0]
        refine ⟨⟨?_, hsame.1.symm⟩, ?_⟩
        · rw [h1.1, ← hsame.2, ← hsame.1]
        · rw [← hsame.2]
      exact (List.find?_eq_none.mp hnone) ts hts hm
    · rw [setslot_other _ _ _ _ hi]
      exact hinv.2 i

theorem poolInv_reachable (w : Process) (hr : Reachable w) : PoolInv w := by
  induction hr with
  | empty n brk freed =>
    exact ⟨fun i ts hts => absurd hts (List.not_mem_nil _), fun i => List.Pairwise.nil⟩
  | intern e g s g' w' ts _ hlen hstep ih =>
    rcases intern_pool_step _ _ _ _ _ _ _ _ hstep with h | ⟨hnone, hw⟩
    · exact ⟨fun i => by rw [h]; exact ih.1 i, fun i => by rw [h]; exact ih.2 i⟩
    · exact poolInv_push _ _ s hlen ih hnone hw
  | expand n _ ih => exact ih

theorem poolInv_unique (w : Process) (hinv : PoolInv w) : PoolUnique w := by
  intro i j a b x y hx hy hlen hstr
  have hxm : x ∈ w.SSM.h i := List.getElem?_mem hx
  have hym : y ∈ w.SSM.h j := List.getElem?_mem hy
  have h1 := hinv.1 i x hxm
  have h2 := hinv.1 j y hym
  have hij : i = j := by
    rw [← h1.2.1, ← h2.2.1, h1.1, h2.1, hlen, hstr]
  subst hij
  refine ⟨rfl, ?_⟩
  have hp := List.pairwise_iff_getElem.mp (hinv.2 i)
  obtain ⟨ha, hxa⟩ := List.getElem?_eq_some_iff.mp hx
  obtain ⟨hb, hyb⟩ := List.getElem?_eq_some_iff.mp hy
  by_contra hab
  rcases Nat.lt_or_gt_of_ne hab with h | h
  · exact hp a b ha hb h (by rw [hxa, hyb]; exact ⟨hlen, hstr⟩)
  · exact hp b a hb ha h (by rw [hxa, hyb]; exact ⟨hlen.symm, hstr.symm⟩)

/-- C7: in every state of the shared map reachable from the empty map by a sequence of
interning calls (by instances in any state, with any seed) and budget expansions, no two
pool-owned objects have the same length and content, be it in one slot or in two. -/
theorem pool_unique (w : Process) (hr : Reachable w) : PoolUnique w :=
  poolInv_unique w (poolInv_reachable w hr)

theorem reachable_processBarFoo : Reachable processBarFoo := by
  have h1 : Reachable (promoted (freshProcess 2) strBar 3) :=
    Reachable.intern envOk (freshInstance 7) strBar _ _ _ (Reachable.empty 2 0 []) (by decide)
      (intern_promoted envOk (freshInstance 7) (freshProcess 2) strBar (by decide)
        (strtAbsent_fresh 7 strBar) (poolAbsent_fresh 2 strBar) (by decide) rfl)
  have habs : PoolAbsent (promoted (freshProcess 2) strBar 3) strFoo := by
    intro i _ ts hts
    rcases promoted_mem _ _ _ _ _ hts with h | h
    · subst h; decide
    · exact absurd h (List.not_mem_nil _)
  exact Reachable.intern envOk (freshInstance 1) strFoo _ _ _ h1 (by decide)
    (intern_promoted envOk (freshInstance 1) _ strFoo (by decide)
      (strtAbsent_fresh 1 strFoo) habs (by decide) rfl)

/-- C7 at a concrete input: the shared map after "bar" and "foo" have been promoted. -/
theorem pool_unique_witness : Reachable processBarFoo ∧ PoolUnique processBarFoo :=
  ⟨reachable_processBarFoo, pool_unique processBarFoo reachable_processBarFoo⟩

/-! ## Teardown of the shared map -/

theorem exitssm_chain (c : List TString) (fr : List Nat) (x : Nat)
    (h : x ∈ fr ∨ ∃ ts ∈ c, ts.addr = x) :
    x ∈ c.foldl (fun fr ts => ts.addr :: fr) fr := by
  induction c generalizing fr with
  | nil =>
    rcases h with h | ⟨ts, hts, _⟩
    · exact h
    · exact absurd hts (List.not_mem_nil _)
  | cons t c ih =>
    simp only [List.foldl_cons]
    apply ih
    rcases h with h | ⟨ts, hts, hx⟩
    · exact Or.inl (List.mem_cons_of_mem _ h)
    · rcases List.mem_cons.mp hts with h | h
      · subst h; exact Or.inl (by rw [hx]; exact List.mem_cons_self _ _)
      · exact Or.inr ⟨ts, h, hx⟩

theorem exitssm_slots (vect : Nat → List TString) (L : List Nat) (fr : List Nat) (x : Nat)
    (h : x ∈ fr ∨ ∃ i ∈ L, ∃ ts ∈ vect i, ts.addr = x) :
    x ∈ L.foldl (fun fr i => (vect i).foldl (fun fr ts => ts.addr :: fr) fr) fr := by
  induction L generalizing fr with
  | nil =>
    rcases h with h | ⟨i, hi, _⟩
    · exact h
    · exact absurd hi (List.not_mem_nil _)
  | cons j L ih =>
    simp only [List.foldl_cons]
    apply ih
    rcases h with h | ⟨i, hi, ts, hts, hx⟩
    · exact Or.inl (exitssm_chain _ _ _ (Or.inl h))
    · rcases List.mem_cons.mp hi with h | h
      · subst h; exact Or.inl (exitssm_chain _ _ _ (Or.inr ⟨ts, hts, hx⟩))
      · exact Or.inr ⟨i, h, ts, hts, hx⟩

theorem exitssm_freed (w : Process) (i : Nat) (hi : i < SHRSTR_SLOT) (ts : TString)
    (hts : ts ∈ w.SSM.h i) : ts.addr ∈ (luaS_exitssm w).freed := by
  simp only [luaS_exitssm]
  exact exitssm_slots w.SSM.h (List.range SHRSTR_SLOT) w.freed ts.addr
    (Or.inr ⟨i, List.mem_range.mpr hi, ts, hts, rfl⟩)

theorem exitssm_initssm_SSM (w : Process) : (luaS_initssm (luaS_exitssm w)).SSM = w.SSM := by
  simp only [luaS_initssm, luaS_exitssm]

theorem exitssm_initssm_freed (w : Process) :
    (luaS_initssm (luaS_exitssm w)).freed = (luaS_exitssm w).freed := by
  simp only [luaS_initssm]

theorem ssmcount_congr (w w' : Process) (h : w'.SSM = w.SSM) : ssmcount w' = ssmcount w := by
  simp only [ssmcount, h]

/-- C8 (the code departs from the claim): the shared map holds "bar" (promoted into the
empty map, object at address 0). After `luaS_exitssm` followed by `luaS_initssm` the
slot of "bar" is not empty: its head is still the object at address 0, which has been
freed; a query for "bar" does not miss, and `luaS_ssminfo` reports 1 object, not 0.
`luaS_exitssm` frees the chains without resetting the slots, and `luaS_initssm` only
initialises the locks. -/
theorem teardown_init_keeps_chains :
    (luaS_initssm (luaS_exitssm (promoted (freshProcess 1) strBar 3))).SSM.h
        (HASH_NODE (luaS_hash strBar 3 0)) = [ssmobj 0 (luaS_hash strBar 3 0) strBar 3] ∧
    (ssmobj 0 (luaS_hash strBar 3 0) strBar 3).addr
      ∈ (luaS_initssm (luaS_exitssm (promoted (freshProcess 1) strBar 3))).freed ∧
    queryfromssm (luaS_initssm (luaS_exitssm (promoted (freshProcess 1) strBar 3)))
        (luaS_hash strBar 3 0) strBar 3 = some (ssmobj 0 (luaS_hash strBar 3 0) strBar 3) ∧
    (luaS_ssminfo (luaS_initssm (luaS_exitssm (promoted (freshProcess 1) strBar 3)))).1 = 1 := by
  have hslot : (promoted (freshProcess 1) strBar 3).SSM.h (HASH_NODE (luaS_hash strBar 3 0))
      = [ssmobj 0 (luaS_hash strBar 3 0) strBar 3] := by
    simp [promoted, setslot_same, freshProcess]
  refine ⟨?_, ?_, ?_, ?_⟩
  · rw [exitssm_initssm_SSM]; exact hslot
  · rw [exitssm_initssm_freed]
    exact exitssm_freed _ _ (HASH_NODE_lt _) _ (by rw [hslot]; exact List.mem_cons_self _ _)
  · simp only [queryfromssm, exitssm_initssm_SSM]
    rw [hslot]
    decide
  · rw [ssminfo_count, ssmcount_congr _ _ (exitssm_initssm_SSM _), ssmcount_promoted,
      ssmcount_fresh]
    decide

/-! ## Rehashing -/

theorem total_agree (F : List TString → Nat) (hnil : F [] = 0) (v v' : Nat → List TString)
    (M N : Nat) (hMN : M ≤ N) (hag : ∀ j, j < M → v j = v' j)
    (hem : ∀ j, M ≤ j → j < N → v j = []) : total F v N = total F v' M := by
  induction N with
  | zero =>
    have : M = 0 := by omega
    subst this; rfl
  | succ N ih =>
    by_cases h : M = N + 1
    · subst h
      unfold total
      congr 1
      apply List.map_congr_left
      intro j hj
      rw [hag j (List.mem_range.mp hj)]
    · rw [total_succ, hem N (by omega) (by omega), hnil,
        ih (by omega) (fun j h1 h2 => hem j h1 (by omega))]
      rfl

theorem clear_slots (vect : Nat → List TString) (o k : Nat) :
    (List.range' o k).foldl (fun v i => setslot v i []) vect
      = fun j => if o ≤ j ∧ j < o + k then [] else vect j := by
  induction k generalizing o vect with
  | zero =>
    funext j
    have h2 : ¬ (o ≤ j ∧ j < o + 0) := by omega
    rw [if_neg h2]
    rfl
  | succ k ih =>
    rw [List.range'_succ, List.foldl_cons, ih]
    funext j
    by_cases h1 : o + 1 ≤ j ∧ j < o + 1 + k
    · have h2 : o ≤ j ∧ j < o + (k + 1) := by omega
      simp [h1, h2]
    · by_cases h3 : j = o
      · subst h3
        simp [setslot]
      · have h2 : ¬ (o ≤ j ∧ j < o + (k + 1)) := by omega
        simp [h1, h2, setslot, h3]

theorem rehashchain_mem (nsize : Nat) (p : List TString) (vect : Nat → List TString) (j : Nat)
    (ts : TString) (h : ts ∈ rehashchain nsize p vect j) :
    ts ∈ vect j ∨ (ts ∈ p ∧ lmod ts.hash nsize = j) := by
  induction p generalizing vect with
  | nil => exact Or.inl h
  | cons x p ih =>
    simp only [rehashchain] at h
    rcases ih _ h with h1 | ⟨h1, h2⟩
    · by_cases hj : j = lmod x.hash nsize
      · subst hj
        rw [setslot_same] at h1
        rcases List.mem_cons.mp h1 with h3 | h3
        · subst h3; exact Or.inr ⟨List.mem_cons_self _ _, rfl⟩
        · exact Or.inl h3
      · rw [setslot_other _ _ _ _ hj] at h1
        exact Or.inl h1
    · exact Or.inr ⟨List.mem_cons_of_mem _ h1, h2⟩

theorem rehashchain_total (F : List TString → Nat) (f : TString → Nat)
    (hcons : ∀ a c, F (a :: c) = F c + f a) (nsize N : Nat) (hn : 0 < nsize) (hN : nsize ≤ N)
    (p : List TString) (vect : Nat → List TString) :
    total F (rehashchain nsize p vect) N + F [] = total F vect N + F p := by
  induction p generalizing vect with
  | nil => rfl
  | cons x p ih =>
    simp only [rehashchain]
    have h1 := ih (setslot vect (lmod x.hash nsize) (x :: vect (lmod x.hash nsize)))
    have hlt : lmod x.hash nsize < N := Nat.lt_of_lt_of_le (Nat.mod_lt _ hn) hN
    have h2 := total_setslot F vect (lmod x.hash nsize) (x :: vect (lmod x.hash nsize)) N hlt
    have h3 := hcons x (vect (lmod x.hash nsize))
    have h4 := hcons x p
    omega

theorem rehashloop_total (F : List TString → Nat) (f : TString → Nat)
    (hcons : ∀ a c, F (a :: c) = F c + f a) (nsize N : Nat) (hn : 0 < nsize) (hN : nsize ≤ N)
    (L : List Nat) (hL : ∀ i ∈ L, i < N) (vect : Nat → List TString) :
    total F (L.foldl (fun v i => rehashchain nsize (v i) (setslot v i [])) vect) N
      = total F vect N := by
  induction L generalizing vect with
  | nil => rfl
  | cons i L ih =>
    rw [List.foldl_cons, ih (fun j hj => hL j (List.mem_cons_of_mem _ hj))]
    have h1 := rehashchain_total F f hcons nsize N hn hN (vect i) (setslot vect i [])
    have h2 := total_setslot F vect i [] N (hL i (List.mem_cons_self _ _))
    omega

theorem rehashloop_placed (nsize osize N : Nat) (vect : Nat → List TString) (k : Nat)
    (h0 : ∀ j, j < N → osize ≤ j → vect j = []) :
    ∀ j, j < N → (j < k ∨ osize ≤ j) →
      ∀ ts ∈ (List.range k).foldl (fun v i => rehashchain nsize (v i) (setslot v i [])) vect j,
        lmod ts.hash nsize = j := by
  induction k with
  | zero =>
    intro j hj hk ts hts
    rcases hk with hk | hk
    · omega
    · simp only [List.range_zero, List.foldl_nil] at hts
      rw [h0 j hj hk] at hts
      exact absurd hts (List.not_mem_nil _)
  | succ k ih =>
    intro j hj hk ts hts
    rw [List.range_succ, List.foldl_append] at hts
    simp only [List.foldl_cons, List.foldl_nil] at hts
    rcases rehashchain_mem _ _ _ _ _ hts with h1 | ⟨_, h1⟩
    · by_cases hjk : j = k
      · subst hjk
        rw [setslot_same] at h1
        exact absurd h1 (List.not_mem_nil _)
      · rw [setslot_other _ _ _ _ hjk] at h1
        exact ih j hj (by omega) ts h1
    · exact h1

theorem tablerehash_placed (vect : Nat → List TString) (osize nsize : Nat) :
    ∀ j, j < max osize nsize → ∀ ts ∈ tablerehash vect osize nsize j,
      lmod ts.hash nsize = j := by
  intro j hj ts hts
  unfold tablerehash at hts
  refine rehashloop_placed nsize osize (max osize nsize) _ osize ?_ j hj (by omega) ts hts
  intro i hi ho
  rw [clear_slots]
  have : osize ≤ i ∧ i < osize + (nsize - osize) := by omega
  simp [this]

theorem tablerehash_empty (vect : Nat → List TString) (osize nsize : Nat) (hn : 0 < nsize)
    (j : Nat) (h1 : nsize ≤ j) (h2 : j < max osize nsize) :
    tablerehash vect osize nsize j = [] := by
  cases hc : tablerehash vect osize nsize j with
  | nil => rfl
  | cons ts c =>
    have := tablerehash_placed vect osize nsize j h2 ts (by rw [hc]; exact List.mem_cons_self _ _)
    have hlt : lmod ts.hash nsize < nsize := Nat.mod_lt _ hn
    omega

theorem tablerehash_total (F : List TString → Nat) (f : TString → Nat) (hnil : F [] = 0)
    (hcons : ∀ a c, F (a :: c) = F c + f a) (vect : Nat → List TString) (osize nsize : Nat)
    (hn : 0 < nsize) :
    total F (tablerehash vect osize nsize) nsize = total F vect osize := by
  have h1 : total F (tablerehash vect osize nsize) (max osize nsize) = total F vect osize := by
    unfold tablerehash
    rw [rehashloop_total F f hcons nsize (max osize nsize) hn (by omega) _
      (fun i hi => by have := List.mem_range.mp hi; omega), clear_slots]
    apply total_agree F hnil _ _ osize (max osize nsize) (by omega)
    · intro j hj
      have : ¬ (osize ≤ j ∧ j < osize + (nsize - osize)) := by omega
      simp [this]
    · intro j hj1 hj2
      have : osize ≤ j ∧ j < osize + (nsize - osize) := by omega
      simp [this]
  rw [← h1]
  exact (total_agree F hnil _ _ nsize (max osize nsize) (by omega) (fun _ _ => rfl)
    (fun j hj1 hj2 => tablerehash_empty vect osize nsize hn j hj1 hj2)).symm

theorem count_entries (x : TString) (vect : Nat → List TString) (N : Nat) :
    List.count x (entries vect N) = total (List.count x) vect N := by
  unfold entries total
  rw [List.count_flatMap]
  rfl

theorem total_congr (F : List TString → Nat) (v v' : Nat → List TString) (N : Nat)
    (h : ∀ j, j < N → v j = v' j) : total F v N = total F v' N := by
  unfold total
  congr 1
  apply List.map_congr_left
  intro j hj
  rw [h j (List.mem_range.mp hj)]

theorem mem_entries (ts : TString) (vect : Nat → List TString) (N : Nat) :
    ts ∈ entries vect N ↔ ∃ j, j < N ∧ ts ∈ vect j := by
  unfold entries
  rw [List.mem_flatMap]
  constructor
  · rintro ⟨j, hj, h⟩
    exact ⟨j, List.mem_range.mp hj, h⟩
  · rintro ⟨j, hj, h⟩
    exact ⟨j, List.mem_range.mpr hj, h⟩

theorem tablerehash_perm (vect : Nat → List TString) (osize nsize : Nat) (hn : 0 < nsize) :
    (entries (tablerehash vect osize nsize) nsize).Perm (entries vect osize) := by
  rw [List.perm_iff_count]
  intro x
  rw [count_entries, count_entries]
  exact tablerehash_total (List.count x) (fun b => if b == x then 1 else 0) rfl
    (fun a c => List.count_cons x a c) vect osize nsize hn

theorem entries_congr (v v' : Nat → List TString) (N : Nat)
    (h : ∀ j, j < N → v j = v' j) : (entries v N).Perm (entries v' N) := by
  rw [List.perm_iff_count]
  intro x
  rw [count_entries, count_entries]
  exact total_congr _ v v' N h

theorem eqshrstr_self (ts : TString) : eqshrstr ts.str ts.shrlen ts = true := by
  simp [eqshrstr, memcmp0]

theorem finds_of_placed (g : global_State) (all : List TString) (hinv : TableInv g)
    (hperm : (entries g.strt.hash g.strt.size).Perm all) :
    ∀ ts ∈ all, Finds g all ts := by
  intro ts hts
  have hmem : ts ∈ entries g.strt.hash g.strt.size := hperm.mem_iff.mpr hts
  obtain ⟨j, hj, hin⟩ := (mem_entries _ _ _).mp hmem
  have hjeq := hinv j hj ts hin
  rw [← hjeq] at hin
  obtain ⟨ts1, hq, hm1, hmatch1, _⟩ :=
    queryfromstrt_hit g ts.str ts.shrlen ts.hash ts hin (eqshrstr_self ts)
  have hall : ts1 ∈ all :=
    hperm.mem_iff.mp ((mem_entries _ _ _).mpr ⟨_, by rw [hjeq]; exact hj, hm1⟩)
  exact ⟨ts1, hq, hall, hmatch1, fun hu => hu ts1 hall hmatch1⟩

theorem resize_shrink_ok (e : Env) (g : global_State) (m : Nat) (hok : e.realloc_ok = true)
    (hm : m < g.strt.size) :
    luaS_resize e g m = { g with strt :=
      { hash := fun i => if i < min g.strt.size m
          then tablerehash g.strt.hash g.strt.size m i else e.junk i
        nuse := g.strt.nuse
        size := m } } := by
  have h2 : ¬ (m > g.strt.size) := by omega
  simp only [luaS_resize, luaM_reallocvector, hok, hm, if_true, h2, if_false]

theorem resize_grow_ok (e : Env) (g : global_State) (n : Nat) (hok : e.realloc_ok = true)
    (hn : g.strt.size < n) :
    luaS_resize e g n = { g with strt :=
      { hash := tablerehash (fun i => if i < min g.strt.size n then g.strt.hash i else e.junk i)
          g.strt.size n
        nuse := g.strt.nuse
        size := n } } := by
  have h2 : ¬ (n < g.strt.size) := by omega
  have h3 : n > g.strt.size := hn
  simp only [luaS_resize, luaM_reallocvector, hok, h2, if_true, h3, if_false]

theorem resize_fail_shrink (e : Env) (g : global_State) (m : Nat)
    (hfail : e.realloc_ok = false) (hm : m < g.strt.size) :
    luaS_resize e g m = { g with strt :=
      { g.strt with hash := tablerehash (tablerehash g.strt.hash g.strt.size m) m g.strt.size } } := by
  simp [luaS_resize, luaM_reallocvector, hfail, hm]

theorem resize_fail_other (e : Env) (g : global_State) (m : Nat)
    (hfail : e.realloc_ok = false) (hm : ¬ m < g.strt.size) :
    luaS_resize e g m = g := by
  simp [luaS_resize, luaM_reallocvector, hfail, hm]

/-! ## Resizing the instance table -/

/-- C9: for an instance table of size `n` and a smaller valid size `m` (`0 < m < n`),
`luaS_resize` to `m` followed by `luaS_resize` back to `n`, both reallocations
succeeding, gives a table of size `n` with the same count, whose objects are exactly
the objects present before (none added, none lost), each in the bucket of its hash
modulo `n`, and every object present before is found by `queryfromstrt` with its bytes
and hash. -/
theorem resize_roundtrip (e1 e2 : Env) (g : global_State) (m : Nat)
    (hm : 0 < m) (hmn : m < g.strt.size)
    (h1 : e1.realloc_ok = true) (h2 : e2.realloc_ok = true) :
    (luaS_resize e1 g m).strt.size = m ∧
    (luaS_resize e2 (luaS_resize e1 g m) g.strt.size).strt.size = g.strt.size ∧
    (luaS_resize e2 (luaS_resize e1 g m) g.strt.size).strt.nuse = g.strt.nuse ∧
    (entries (luaS_resize e2 (luaS_resize e1 g m) g.strt.size).strt.hash g.strt.size).Perm
      (entries g.strt.hash g.strt.size) ∧
    TableInv (luaS_resize e2 (luaS_resize e1 g m) g.strt.size) ∧
    ∀ ts ∈ entries g.strt.hash g.strt.size,
      Finds (luaS_resize e2 (luaS_resize e1 g m) g.strt.size)
        (entries g.strt.hash g.strt.size) ts := by
  have hg1 := resize_shrink_ok e1 g m h1 hmn
  have hg2 := resize_grow_ok e2 (luaS_resize e1 g m) g.strt.size h2 (by rw [hg1]; exact hmn)
  have hsize1 : (luaS_resize e1 g m).strt.size = m := by rw [hg1]
  have hsize : (luaS_resize e2 (luaS_resize e1 g m) g.strt.size).strt.size = g.strt.size := by
    rw [hg2]
  have hhash : (luaS_resize e2 (luaS_resize e1 g m) g.strt.size).strt.hash
      = tablerehash (fun i => if i < min m g.strt.size
          then (luaS_resize e1 g m).strt.hash i else e2.junk i) m g.strt.size := by
    rw [hg2, hsize1]
  have hn : 0 < g.strt.size := by omega
  have hperm : (entries (luaS_resize e2 (luaS_resize e1 g m) g.strt.size).strt.hash
      g.strt.size).Perm (entries g.strt.hash g.strt.size) := by
    rw [hhash]
    refine (tablerehash_perm _ m g.strt.size hn).trans ?_
    refine (entries_congr _ (tablerehash g.strt.hash g.strt.size m) m ?_).trans
      (tablerehash_perm _ g.strt.size m hm)
    intro j hj
    have hj1 : j < min m g.strt.size := by omega
    have hj2 : j < min g.strt.size m := by omega
    simp only [hj1, if_true, hg1, hj2]
  have hinv : TableInv (luaS_resize e2 (luaS_resize e1 g m) g.strt.size) := by
    intro j hj ts hts
    rw [hsize] at hj ⊢
    rw [hhash] at hts
    exact tablerehash_placed _ m g.strt.size j (by omega) ts hts
  refine ⟨hsize1, hsize, ?_, hperm, hinv, ?_⟩
  · rw [hg2, hg1]
  · exact finds_of_placed _ _ hinv (by rw [hsize]; exact hperm)

/-- C9 at a concrete input: a table of 4 buckets with three objects, resized to 2 and
back to 4. -/
theorem resize_roundtrip_witness :
    (luaS_resize envOk instanceFour 2).strt.size = 2 ∧
    (luaS_resize envOk (luaS_resize envOk instanceFour 2) instanceFour.strt.size).strt.size
      = instanceFour.strt.size ∧
    (luaS_resize envOk (luaS_resize envOk instanceFour 2) instanceFour.strt.size).strt.nuse
      = instanceFour.strt.nuse ∧
    (entries (luaS_resize envOk (luaS_resize envOk instanceFour 2)
      instanceFour.strt.size).strt.hash instanceFour.strt.size).Perm
      (entries instanceFour.strt.hash instanceFour.strt.size) ∧
    TableInv (luaS_resize envOk (luaS_resize envOk instanceFour 2) instanceFour.strt.size) ∧
    ∀ ts ∈ entries instanceFour.strt.hash instanceFour.strt.size,
      Finds (luaS_resize envOk (luaS_resize envOk instanceFour 2) instanceFour.strt.size)
        (entries instanceFour.strt.hash instanceFour.strt.size) ts :=
  resize_roundtrip envOk envOk instanceFour 2 (by decide) (by decide) rfl rfl

/-- C10: when the reallocation inside `luaS_resize` fails, for a request to grow or to
shrink (to a valid size `nsize > 0`) a table that satisfies the placement invariant, the
table keeps its size and its count, its objects are exactly the objects present before,
each again in the bucket of its hash modulo the original size, and every object present
before is found by `queryfromstrt` with its bytes and hash. -/
theorem resize_alloc_failure (e : Env) (g : global_State) (nsize : Nat)
    (hn : 0 < nsize) (hfail : e.realloc_ok = false) (hinv : TableInv g) :
    (luaS_resize e g nsize).strt.size = g.strt.size ∧
    (luaS_resize e g nsize).strt.nuse = g.strt.nuse ∧
    (entries (luaS_resize e g nsize).strt.hash g.strt.size).Perm
      (entries g.strt.hash g.strt.size) ∧
    TableInv (luaS_resize e g nsize) ∧
    ∀ ts ∈ entries g.strt.hash g.strt.size,
      Finds (luaS_resize e g nsize) (entries g.strt.hash g.strt.size) ts := by
  by_cases hs : nsize < g.strt.size
  · have hg := resize_fail_shrink e g nsize hfail hs
    have hsize : (luaS_resize e g nsize).strt.size = g.strt.size := by rw [hg]
    have hhash : (luaS_resize e g nsize).strt.hash
        = tablerehash (tablerehash g.strt.hash g.strt.size nsize) nsize g.strt.size := by
      rw [hg]
    have hperm : (entries (luaS_resize e g nsize).strt.hash g.strt.size).Perm
        (entries g.strt.hash g.strt.size) := by
      rw [hhash]
      exact (tablerehash_perm _ nsize g.strt.size (by omega)).trans
        (tablerehash_perm _ g.strt.size nsize hn)
    have hinv2 : TableInv (luaS_resize e g nsize) := by
      intro j hj ts hts
      rw [hsize] at hj ⊢
      rw [hhash] at hts
      exact tablerehash_placed _ nsize g.strt.size j (by omega) ts hts
    refine ⟨hsize, by rw [hg], hperm, hinv2, ?_⟩
    exact finds_of_placed _ _ hinv2 (by rw [hsize]; exact hperm)
  · rw [resize_fail_other e g nsize hfail hs]
    exact ⟨rfl, rfl, List.Perm.refl _, hinv, finds_of_placed g _ hinv (List.Perm.refl _)⟩

theorem tableInv_instanceFour : TableInv instanceFour := by
  unfold TableInv
  decide

/-- C10 at a concrete input: a table of 4 buckets with three objects, a request to
shrink it to 2 buckets, and a reallocation that fails. -/
theorem resize_alloc_failure_witness :
    (luaS_resize envNoRealloc instanceFour 2).strt.size = instanceFour.strt.size ∧
    (luaS_resize envNoRealloc instanceFour 2).strt.nuse = instanceFour.strt.nuse ∧
    (entries (luaS_resize envNoRealloc instanceFour 2).strt.hash instanceFour.strt.size).Perm
      (entries instanceFour.strt.hash instanceFour.strt.size) ∧
    TableInv (luaS_resize envNoRealloc instanceFour 2) ∧
    ∀ ts ∈ entries instanceFour.strt.hash instanceFour.strt.size,
      Finds (luaS_resize envNoRealloc instanceFour 2)
        (entries instanceFour.strt.hash instanceFour.strt.size) ts :=
  resize_alloc_failure envNoRealloc instanceFour 2 (by decide) rfl tableInv_instanceFour

/-! ## Removal -/

theorem removechain_none (ts : TString) (c : List TString)
    (h : ∀ x ∈ c, x.addr ≠ ts.addr) : removechain ts c = none := by
  induction c with
  | nil => rfl
  | cons x c ih =>
    have h1 : x.addr ≠ ts.addr := h x (List.mem_cons_self _ _)
    simp [removechain, h1, ih (fun y hy => h y (List.mem_cons_of_mem _ hy))]

theorem removechain_erase (ts : TString) (c : List TString) (hmem : ts ∈ c)
    (haddr : ∀ x ∈ c, x.addr = ts.addr → x = ts) : removechain ts c = some (c.erase ts) := by
  induction c with
  | nil => exact absurd hmem (List.not_mem_nil _)
  | cons x c ih =>
    by_cases hx : x.addr = ts.addr
    · have : x = ts := haddr x (List.mem_cons_self _ _) hx
      subst this
      simp [removechain]
    · have hne : x ≠ ts := fun h => hx (by rw [h])
      have hmem2 : ts ∈ c := by
        rcases List.mem_cons.mp hmem with h | h
        · exact absurd h.symm hne
        · exact h
      have hbeq : (x == ts) = false := by simpa using hne
      simp [removechain, hx, ih hmem2 (fun y hy => haddr y (List.mem_cons_of_mem _ hy)),
        List.erase_cons, hbeq]

theorem removechain_some (ts : TString) (c c' : List TString)
    (h : removechain ts c = some c') : c'.length + 1 = c.length ∧ c'.Sublist c := by
  induction c generalizing c' with
  | nil => exact Option.noConfusion h
  | cons x c ih =>
    simp only [removechain] at h
    split at h
    · injection h with h
      subst h
      exact ⟨rfl, List.sublist_cons_self _ _⟩
    · simp only [Option.map_eq_some'] at h
      obtain ⟨c1, h1, h2⟩ := h
      subst h2
      have := ih c1 h1
      exact ⟨by simp [this.1], List.Sublist.cons₂ _ this.2⟩

theorem removechain_isSome (ts : TString) (c : List TString) (hmem : ts ∈ c) :
    ∃ c', removechain ts c = some c' := by
  induction c with
  | nil => exact absurd hmem (List.not_mem_nil _)
  | cons x c ih =>
    by_cases hx : x.addr = ts.addr
    · exact ⟨c, by simp [removechain, hx]⟩
    · have hmem2 : ts ∈ c := by
        rcases List.mem_cons.mp hmem with h | h
        · exact absurd (by rw [h]) hx
        · exact h
      obtain ⟨c1, h1⟩ := ih hmem2
      exact ⟨x :: c1, by simp [removechain, hx, h1]⟩

/-- C13: `luaS_remove` called with an object that is not in the bucket of its hash
(no object of that chain has its address) does not return: the walk runs off the end of
the chain, so no state comes back, nothing else is removed and the count is not
decremented. -/
theorem remove_absent_fails (g : global_State) (ts : TString)
    (h : ∀ x ∈ g.strt.hash (lmod ts.hash g.strt.size), x.addr ≠ ts.addr) :
    luaS_remove g ts = none := by
  simp [luaS_remove, removechain_none ts _ h]

/-- C13 at a concrete input: the object at address 9 with hash 5 is not in bucket 1 of
the table of 4 buckets. -/
theorem remove_absent_fails_witness : luaS_remove instanceFour (byteobj 9 5 97) = none :=
  remove_absent_fails instanceFour (byteobj 9 5 97) (by decide)

theorem length_entries (vect : Nat → List TString) (N : Nat) :
    (entries vect N).length = total List.length vect N := by
  induction N with
  | zero => rfl
  | succ N ih =>
    rw [total_succ, ← ih]
    simp [entries, List.range_succ]

theorem tableInv_setslot (g : global_State) (i : Nat) (c : List TString) (n : Int)
    (hinv : TableInv g) (hsub : ∀ x ∈ c, x ∈ g.strt.hash i ∨ lmod x.hash g.strt.size = i) :
    TableInv { g with strt := { hash := setslot g.strt.hash i c, nuse := n,
                                size := g.strt.size } } := by
  intro j hj x hx
  by_cases hji : j = i
  · subst hji
    simp only [setslot_same] at hx
    rcases hsub x hx with h | h
    · exact hinv j hj x h
    · exact h
  · simp only [setslot_other _ _ _ _ hji] at hx
    exact hinv j hj x hx

theorem luaS_remove_some (g g' : global_State) (ts : TString)
    (h : luaS_remove g ts = some g') :
    ∃ c, removechain ts (g.strt.hash (lmod ts.hash g.strt.size)) = some c ∧
      g' = { g with strt := { hash := setslot g.strt.hash (lmod ts.hash g.strt.size) c,
                              nuse := g.strt.nuse - 1, size := g.strt.size } } := by
  simp only [luaS_remove, Option.map_eq_some'] at h
  obtain ⟨c, h1, h2⟩ := h
  exact ⟨c, h1, h2.symm⟩

theorem mem_entries_bucket (g : global_State) (ts : TString) (hinv : TableInv g)
    (hmem : ts ∈ entries g.strt.hash g.strt.size) :
    lmod ts.hash g.strt.size < g.strt.size ∧ ts ∈ g.strt.hash (lmod ts.hash g.strt.size) := by
  obtain ⟨j, hj, hin⟩ := (mem_entries _ _ _).mp hmem
  have := hinv j hj ts hin
  rw [this]
  exact ⟨hj, hin⟩

/-- C12: for a table satisfying the placement invariant and an object `ts` present in
it (the only object of its chain with its address), `luaS_remove (ts)` returns; the
chain of the bucket of `ts` is the old chain with `ts` erased (the other objects keep
their order), all other buckets are unchanged, the count is decremented by exactly 1,
the size is unchanged, the placement invariant still holds, and every other object
present before is still found by `queryfromstrt` with its bytes and hash. -/
theorem remove_present (g : global_State) (ts : TString) (hinv : TableInv g)
    (hmem : ts ∈ entries g.strt.hash g.strt.size)
    (haddr : ∀ x ∈ g.strt.hash (lmod ts.hash g.strt.size), x.addr = ts.addr → x = ts) :
    ∃ g', luaS_remove g ts = some g' ∧
      g'.strt.hash (lmod ts.hash g.strt.size)
        = (g.strt.hash (lmod ts.hash g.strt.size)).erase ts ∧
      (g'.strt.hash (lmod ts.hash g.strt.size)).Sublist
        (g.strt.hash (lmod ts.hash g.strt.size)) ∧
      (∀ j, j ≠ lmod ts.hash g.strt.size → g'.strt.hash j = g.strt.hash j) ∧
      g'.strt.nuse = g.strt.nuse - 1 ∧ g'.strt.size = g.strt.size ∧
      TableInv g' ∧
      ∀ x ∈ entries g.strt.hash g.strt.size, x ≠ ts →
        x ∈ entries g'.strt.hash g'.strt.size ∧
        Finds g' (entries g'.strt.hash g'.strt.size) x := by
  obtain ⟨hlt, hin⟩ := mem_entries_bucket g ts hinv hmem
  have hrm := removechain_erase ts _ hin haddr
  have hinv' : TableInv { g with strt :=
      { hash := setslot g.strt.hash (lmod ts.hash g.strt.size)
          ((g.strt.hash (lmod ts.hash g.strt.size)).erase ts),
        nuse := g.strt.nuse - 1, size := g.strt.size } } :=
    tableInv_setslot g _ _ _ hinv (fun x hx => Or.inl (List.mem_of_mem_erase hx))
  refine ⟨{ g with strt :=
      { hash := setslot g.strt.hash (lmod ts.hash g.strt.size)
          ((g.strt.hash (lmod ts.hash g.strt.size)).erase ts),
        nuse := g.strt.nuse - 1, size := g.strt.size } }, ?_, ?_, ?_, ?_, rfl, rfl, hinv', ?_⟩
  · simp [luaS_remove, hrm]
  · simp [setslot_same]
  · simp only [setslot_same]; exact List.erase_sublist _ _
  · intro j hj
    simp [setslot_other _ _ _ _ hj]
  · intro x hx hne
    have hx' : x ∈ entries (setslot g.strt.hash (lmod ts.hash g.strt.size)
        ((g.strt.hash (lmod ts.hash g.strt.size)).erase ts)) g.strt.size := by
      obtain ⟨j, hj, hxj⟩ := (mem_entries _ _ _).mp hx
      refine (mem_entries _ _ _).mpr ⟨j, hj, ?_⟩
      by_cases hji : j = lmod ts.hash g.strt.size
      · subst hji
        rw [setslot_same]
        exact (List.mem_erase_of_ne hne).mpr hxj
      · rw [setslot_other _ _ _ _ hji]; exact hxj
    exact ⟨hx', finds_of_placed _ _ hinv' (List.Perm.refl _) x hx'⟩

/-- C12 at a concrete input: "b" (address 1, hash 1) is removed from bucket 1 of the
table of 4 buckets, where it follows "a". -/
theorem remove_present_witness :
    ∃ g', luaS_remove instanceFour (byteobj 1 1 98) = some g' ∧
      g'.strt.hash (lmod (byteobj 1 1 98).hash instanceFour.strt.size)
        = (instanceFour.strt.hash
            (lmod (byteobj 1 1 98).hash instanceFour.strt.size)).erase (byteobj 1 1 98) ∧
      (g'.strt.hash (lmod (byteobj 1 1 98).hash instanceFour.strt.size)).Sublist
        (instanceFour.strt.hash (lmod (byteobj 1 1 98).hash instanceFour.strt.size)) ∧
      (∀ j, j ≠ lmod (byteobj 1 1 98).hash instanceFour.strt.size →
        g'.strt.hash j = instanceFour.strt.hash j) ∧
      g'.strt.nuse = instanceFour.strt.nuse - 1 ∧ g'.strt.size = instanceFour.strt.size ∧
      TableInv g' ∧
      ∀ x ∈ entries instanceFour.strt.hash instanceFour.strt.size, x ≠ byteobj 1 1 98 →
        x ∈ entries g'.strt.hash g'.strt.size ∧
        Finds g' (entries g'.strt.hash g'.strt.size) x :=
  remove_present instanceFour (byteobj 1 1 98) tableInv_instanceFour (by decide) (by decide)

/-! ## The instance-table invariant -/

theorem resize_same_ok (e : Env) (g : global_State) (hok : e.realloc_ok = true) :
    luaS_resize e g g.strt.size = { g with strt :=
      { hash := fun i => if i < min g.strt.size g.strt.size then g.strt.hash i else e.junk i
        nuse := g.strt.nuse
        size := g.strt.size } } := by
  simp [luaS_resize, luaM_reallocvector, hok]

theorem resize_keeps (e : Env) (g : global_State) (nsize : Nat) (hn : 0 < nsize)
    (hinv : TableInv g) :
    (luaS_resize e g nsize).strt.nuse = g.strt.nuse ∧
    ((luaS_resize e g nsize).strt.size = nsize ∨
      (luaS_resize e g nsize).strt.size = g.strt.size) ∧
    (entries (luaS_resize e g nsize).strt.hash (luaS_resize e g nsize).strt.size).Perm
      (entries g.strt.hash g.strt.size) ∧
    TableInv (luaS_resize e g nsize) := by
  cases hok : e.realloc_ok with
  | false =>
    by_cases hs : nsize < g.strt.size
    · rw [resize_fail_shrink e g nsize hok hs]
      refine ⟨rfl, Or.inr rfl, ?_, ?_⟩
      · exact (tablerehash_perm _ nsize g.strt.size (by omega)).trans
          (tablerehash_perm _ g.strt.size nsize hn)
      · intro j hj ts hts
        exact tablerehash_placed _ nsize g.strt.size j
          (Nat.lt_of_lt_of_le hj (Nat.le_max_right _ _)) ts hts
    · rw [resize_fail_other e g nsize hok hs]
      exact ⟨rfl, Or.inr rfl, List.Perm.refl _, hinv⟩
  | true =>
    rcases Nat.lt_trichotomy nsize g.strt.size with hs | hs | hs
    · rw [resize_shrink_ok e g nsize hok hs]
      refine ⟨rfl, Or.inl rfl, ?_, ?_⟩
      · refine (entries_congr _ (tablerehash g.strt.hash g.strt.size nsize) nsize ?_).trans
          (tablerehash_perm _ g.strt.size nsize hn)
        intro j hj
        have hj2 : j < min g.strt.size nsize := by omega
        simp only [hj2, if_true]
      · intro j hj ts hts
        have hj1 : j < nsize := hj
        have hj2 : j < min g.strt.size nsize := by omega
        simp only [hj2, if_true] at hts
        exact tablerehash_placed _ g.strt.size nsize j
          (Nat.lt_of_lt_of_le hj1 (Nat.le_max_right _ _)) ts hts
    · subst hs
      rw [resize_same_ok e g hok]
      refine ⟨rfl, Or.inl rfl, ?_, ?_⟩
      · refine entries_congr _ _ _ ?_
        intro j hj
        have hj1 : j < g.strt.size := hj
        have hj2 : j < min g.strt.size g.strt.size := by rw [Nat.min_self]; exact hj1
        simp only [hj2, if_true]
      · intro j hj ts hts
        have hj1 : j < g.strt.size := hj
        have hj2 : j < min g.strt.size g.strt.size := by rw [Nat.min_self]; exact hj1
        simp only [hj2, if_true] at hts
        exact hinv j hj1 ts hts
    · rw [resize_grow_ok e g nsize hok hs]
      refine ⟨rfl, Or.inl rfl, ?_, ?_⟩
      · refine (tablerehash_perm _ g.strt.size nsize hn).trans (entries_congr _ _ _ ?_)
        intro j hj
        have hj2 : j < min g.strt.size nsize := by omega
        simp only [hj2, if_true]
      · intro j hj ts hts
        exact tablerehash_placed _ g.strt.size nsize j
          (Nat.lt_of_lt_of_le hj (Nat.le_max_right _ _)) ts hts

theorem strtInv_resize (e : Env) (g : global_State) (nsize : Nat) (hn : 0 < nsize)
    (hinv : StrtInv g) : StrtInv (luaS_resize e g nsize) := by
  obtain ⟨h1, _, h3, h4⟩ := resize_keeps e g nsize hn hinv.1
  exact ⟨h4, by rw [h1, hinv.2, h3.length_eq]⟩

theorem strtInv_remove (g g' : global_State) (ts : TString) (hinv : StrtInv g)
    (hsize : 0 < g.strt.size) (h : luaS_remove g ts = some g') : StrtInv g' := by
  obtain ⟨c, hc, hg⟩ := luaS_remove_some g g' ts h
  subst hg
  obtain ⟨hlen, hsub⟩ := removechain_some ts _ c hc
  refine ⟨tableInv_setslot g _ c _ hinv.1 (fun x hx => Or.inl (hsub.subset hx)), ?_⟩
  have ht := total_setslot List.length g.strt.hash (lmod ts.hash g.strt.size) c g.strt.size
    (Nat.mod_lt _ hsize)
  have h2 := hinv.2
  rw [length_entries] at h2
  simp only [length_entries]
  omega

theorem strtInv_linked (g1 : global_State) (h : Nat) (ts : TString) (hinv : StrtInv g1)
    (hsize : 0 < g1.strt.size) (hh : ts.hash = h) : StrtInv (linked g1 h ts) := by
  refine ⟨tableInv_setslot g1 _ _ _ hinv.1 ?_, ?_⟩
  · intro x hx
    rcases List.mem_cons.mp hx with hx | hx
    · subst hx; exact Or.inr (by rw [hh])
    · exact Or.inl hx
  · have ht := total_setslot List.length g1.strt.hash (lmod h g1.strt.size)
      (ts :: g1.strt.hash (lmod h g1.strt.size)) g1.strt.size (Nat.mod_lt _ hsize)
    have h2 := hinv.2
    rw [length_entries] at h2
    simp only [linked, length_entries, List.length_cons] at ht ⊢
    omega

theorem growstrtab_cases (e : Env) (g g1 : global_State) (h : growstrtab e g = some g1) :
    ∃ g0, ((g.strt.nuse ≠ MAX_INT ∧ g0 = g) ∨
        (g.strt.nuse = MAX_INT ∧ g0 = e.fullgc g ∧ (e.fullgc g).strt.nuse ≠ MAX_INT)) ∧
      ((g0.strt.size ≤ MAXSTRTB / 2 ∧ g1 = luaS_resize e g0 (g0.strt.size * 2)) ∨
        (¬ g0.strt.size ≤ MAXSTRTB / 2 ∧ g1 = g0)) := by
  unfold growstrtab at h
  simp only [Option.map_eq_some'] at h
  obtain ⟨g0, h0, h1⟩ := h
  refine ⟨g0, ?_, ?_⟩
  · by_cases hm : g.strt.nuse = MAX_INT
    · simp only [hm, if_true] at h0
      by_cases hm2 : (e.fullgc g).strt.nuse = MAX_INT
      · simp [hm2] at h0
      · simp only [hm2, if_false] at h0
        injection h0 with h0
        exact Or.inr ⟨hm, h0.symm, hm2⟩
    · simp only [hm, if_false] at h0
      injection h0 with h0
      exact Or.inl ⟨hm, h0.symm⟩
  · by_cases hs : g0.strt.size ≤ MAXSTRTB / 2
    · simp only [hs, if_true] at h1
      exact Or.inl ⟨hs, h1.symm⟩
    · simp only [hs, if_false] at h1
      exact Or.inr ⟨hs, h1.symm⟩

theorem addtostrt_cases (e : Env) (g : global_State) (w : Process) (str : List Byte)
    (l h : Nat) (g' : global_State) (w' : Process) (ts : TString)
    (hr : addtostrt e g w str l h = some (g', w', ts)) :
    ∃ g1 : global_State,
      ((¬ g.strt.nuse ≥ (g.strt.size : Int) ∧ g1 = g) ∨
        (g.strt.nuse ≥ (g.strt.size : Int) ∧ growstrtab e g = some g1)) ∧
      g' = linked g1 h (strtobj g1 w.brk h str l) ∧
      w' = { w with brk := w.brk + 1 } ∧ ts = strtobj g1 w.brk h str l := by
  unfold addtostrt createstrobj at hr
  simp only [Option.bind_eq_some, Option.map_eq_some'] at hr
  obtain ⟨g1, hg1, r, hr1, hr2⟩ := hr
  refine ⟨g1, ?_, ?_⟩
  · by_cases hc : g.strt.nuse ≥ (g.strt.size : Int)
    · simp only [hc, if_true] at hg1
      exact Or.inr ⟨hc, hg1⟩
    · simp only [hc, if_false] at hg1
      injection hg1 with hg1
      exact Or.inl ⟨hc, hg1.symm⟩
  · split at hr1
    · injection hr1 with hr1
      subst hr1
      simp only [Prod.mk.injEq] at hr2
      obtain ⟨h1, h2, h3⟩ := hr2
      exact ⟨h1.symm, h2.symm, h3.symm⟩
    · exact Option.noConfusion hr1

theorem strtInv_grow (e : Env) (g g1 : global_State) (hinv : StrtInv g)
    (hsize : 0 < g.strt.size)
    (hgc : g.strt.nuse = MAX_INT → StrtInv (e.fullgc g) ∧ 0 < (e.fullgc g).strt.size)
    (h : growstrtab e g = some g1) : StrtInv g1 ∧ 0 < g1.strt.size := by
  obtain ⟨g0, h0, h1⟩ := growstrtab_cases e g g1 h
  have hg0 : StrtInv g0 ∧ 0 < g0.strt.size := by
    rcases h0 with ⟨_, h0⟩ | ⟨hm, h0, _⟩
    · subst h0; exact ⟨hinv, hsize⟩
    · subst h0; exact hgc hm
  rcases h1 with ⟨_, h1⟩ | ⟨_, h1⟩
  · subst h1
    refine ⟨strtInv_resize e g0 _ (by omega) hg0.1, ?_⟩
    rcases (resize_keeps e g0 (g0.strt.size * 2) (by omega) hg0.1.1).2.1 with hs | hs
    · rw [hs]; omega
    · rw [hs]; exact hg0.2
  · subst h1; exact hg0

theorem strtInv_addtostrt (e : Env) (g : global_State) (w : Process) (str : List Byte)
    (l h : Nat) (g' : global_State) (w' : Process) (ts : TString) (hinv : StrtInv g)
    (hsize : 0 < g.strt.size)
    (hgc : g.strt.nuse = MAX_INT → StrtInv (e.fullgc g) ∧ 0 < (e.fullgc g).strt.size)
    (hr : addtostrt e g w str l h = some (g', w', ts)) : StrtInv g' ∧ 0 < g'.strt.size := by
  obtain ⟨g1, hg1, hg', _, _⟩ := addtostrt_cases e g w str l h g' w' ts hr
  have h1 : StrtInv g1 ∧ 0 < g1.strt.size := by
    rcases hg1 with ⟨_, hg1⟩ | ⟨_, hg1⟩
    · subst hg1; exact ⟨hinv, hsize⟩
    · exact strtInv_grow e g g1 hinv hsize hgc hg1
  subst hg'
  exact ⟨strtInv_linked g1 h _ h1.1 h1.2 rfl, h1.2⟩

/-- C11: the instance-table invariant (every object reachable from bucket `i` has
`hash mod size = i`, and `nuse` is the number of objects reachable by walking all
buckets) is preserved by `addtostrt` (also when it grows the table first; the call
returns when no memory error is raised, and a full collection run by the growth step is
assumed to keep the invariant), by `luaS_remove` of an object present in the table, and
by `luaS_resize` to a valid size, whether the reallocation succeeds or fails. -/
theorem strtInv_preserved (g : global_State) (hinv : StrtInv g) :
    (∀ (e : Env) (w : Process) (str : List Byte) (l h : Nat), 0 < g.strt.size →
      NoMemError e g →
      (g.strt.nuse = MAX_INT → StrtInv (e.fullgc g) ∧ 0 < (e.fullgc g).strt.size) →
      ∃ g' w' ts, addtostrt e g w str l h = some (g', w', ts) ∧ StrtInv g') ∧
    (∀ ts ∈ entries g.strt.hash g.strt.size,
      ∃ g', luaS_remove g ts = some g' ∧ StrtInv g') ∧
    (∀ (e : Env) (nsize : Nat), 0 < nsize → StrtInv (luaS_resize e g nsize)) := by
  refine ⟨?_, ?_, ?_⟩
  · intro e w str l h hsize hmem hgc
    obtain ⟨g1, hg1⟩ := addtostrt_some e g w str l h hmem
    exact ⟨_, _, _, hg1, (strtInv_addtostrt e g w str l h _ _ _ hinv hsize hgc hg1).1⟩
  · intro ts hts
    obtain ⟨hlt, hin⟩ := mem_entries_bucket g ts hinv.1 hts
    obtain ⟨c, hc⟩ := removechain_isSome ts _ hin
    have hr : luaS_remove g ts = some { g with strt :=
        { hash := setslot g.strt.hash (lmod ts.hash g.strt.size) c,
          nuse := g.strt.nuse - 1, size := g.strt.size } } := by
      simp [luaS_remove, hc]
    exact ⟨_, hr, strtInv_remove g _ ts hinv (by omega) hr⟩
  · intro e nsize hn
    exact strtInv_resize e g nsize hn hinv

theorem strtInv_instanceFour : StrtInv instanceFour := by
  refine ⟨tableInv_instanceFour, ?_⟩
  decide

/-- C11 at a concrete input: the table of 4 buckets holding three objects. -/
theorem strtInv_preserved_witness :
    (∀ (e : Env) (w : Process) (str : List Byte) (l h : Nat), 0 < instanceFour.strt.size →
      NoMemError e instanceFour →
      (instanceFour.strt.nuse = MAX_INT →
        StrtInv (e.fullgc instanceFour) ∧ 0 < (e.fullgc instanceFour).strt.size) →
      ∃ g' w' ts, addtostrt e instanceFour w str l h = some (g', w', ts) ∧ StrtInv g') ∧
    (∀ ts ∈ entries instanceFour.strt.hash instanceFour.strt.size,
      ∃ g', luaS_remove instanceFour ts = some g' ∧ StrtInv g') ∧
    (∀ (e : Env) (nsize : Nat), 0 < nsize → StrtInv (luaS_resize e instanceFour nsize)) :=
  strtInv_preserved instanceFour strtInv_instanceFour

/-! ## Insertion into the instance table -/

theorem white_and_other (c : Nat) : (c &&& WHITEBITS) &&& (c ^^^ WHITEBITS) = 0 := by
  apply Nat.eq_of_testBit_eq
  intro i
  simp only [Nat.testBit_and, Nat.testBit_xor, Nat.zero_testBit]
  cases c.testBit i <;> cases WHITEBITS.testBit i <;> rfl

theorem strtobj_alive (g1 g2 : global_State) (a h : Nat) (str : List Byte) (l : Nat)
    (hc : g2.currentwhite = g1.currentwhite) : isdead g2 (strtobj g1 a h str l) = false := by
  simp [isdead, strtobj, hc, white_and_other]

theorem resize_colour (e : Env) (g : global_State) (nsize : Nat) :
    (luaS_resize e g nsize).currentwhite = g.currentwhite ∧
    (luaS_resize e g nsize).seed = g.seed := by
  unfold luaS_resize
  simp only
  split
  · split <;> exact ⟨rfl, rfl⟩
  · exact ⟨rfl, rfl⟩

theorem grown_keeps (e : Env) (g : global_State) (hsize : 0 < g.strt.size)
    (hinv : TableInv g) :
    (grown e g).strt.nuse = g.strt.nuse ∧
    ((grown e g).strt.size = g.strt.size ∨ (grown e g).strt.size = g.strt.size * 2) ∧
    (entries (grown e g).strt.hash (grown e g).strt.size).Perm
      (entries g.strt.hash g.strt.size) ∧
    TableInv (grown e g) ∧ (grown e g).currentwhite = g.currentwhite := by
  unfold grown
  split
  · split
    · obtain ⟨h1, h2, h3, h4⟩ := resize_keeps e g (g.strt.size * 2) (by omega) hinv
      exact ⟨h1, h2.symm, h3, h4, (resize_colour e g _).1⟩
    · exact ⟨rfl, Or.inl rfl, List.Perm.refl _, hinv, rfl⟩
  · exact ⟨rfl, Or.inl rfl, List.Perm.refl _, hinv, rfl⟩

theorem addtostrt_grown (e : Env) (g : global_State) (w : Process) (str : List Byte)
    (l h : Nat) (hobj : e.newobj_ok = true) (hmax : g.strt.nuse ≠ MAX_INT) :
    addtostrt e g w str l h = some
      (linked (grown e g) h (strtobj (grown e g) w.brk h str l), { w with brk := w.brk + 1 },
        strtobj (grown e g) w.brk h str l) := by
  have hg : (if g.strt.nuse ≥ (g.strt.size : Int) then growstrtab e g else some g)
      = some (grown e g) := by
    unfold grown growstrtab
    by_cases h1 : g.strt.nuse ≥ (g.strt.size : Int)
    · by_cases h2 : g.strt.size ≤ MAXSTRTB / 2 <;> simp [h1, h2, hmax]
    · simp [h1]
  simp only [addtostrt, hg, Option.some_bind, createstrobj, hobj, if_true, Option.map_some',
    linked, strtobj]

theorem entries_linked (g1 : global_State) (h : Nat) (ts : TString)
    (hsize : 0 < g1.strt.size) :
    (entries (linked g1 h ts).strt.hash (linked g1 h ts).strt.size).Perm
      (ts :: entries g1.strt.hash g1.strt.size) := by
  rw [List.perm_iff_count]
  intro x
  rw [List.count_cons, count_entries, count_entries]
  have ht := total_setslot (List.count x) g1.strt.hash (lmod h g1.strt.size)
    (ts :: g1.strt.hash (lmod h g1.strt.size)) g1.strt.size (Nat.mod_lt _ hsize)
  rw [List.count_cons] at ht
  simp only [linked]
  omega

theorem tableInv_linked (g1 : global_State) (h : Nat) (ts : TString) (hinv : TableInv g1)
    (hh : ts.hash = h) : TableInv (linked g1 h ts) := by
  refine tableInv_setslot g1 _ _ _ hinv ?_
  intro x hx
  rcases List.mem_cons.mp hx with hx | hx
  · subst hx; exact Or.inr (by rw [hh])
  · exact Or.inl hx

theorem query_linked (g1 : global_State) (h a : Nat) (s : List Byte)
    (hlen : s.length ≤ LUAI_MAXSHORTLEN) :
    (queryfromstrt (linked g1 h (strtobj g1 a h s s.length)) s s.length h).2
      = some (strtobj g1 a h s s.length) := by
  have hm : eqshrstr s s.length (strtobj g1 a h s s.length) = true := by
    simp [eqshrstr, strtobj, short_mod s hlen, memcmp0]
  have ha : isdead (linked g1 h (strtobj g1 a h s s.length)) (strtobj g1 a h s s.length)
      = false := strtobj_alive g1 _ a h s s.length rfl
  simp only [queryfromstrt, linked, setslot_same, querychain, hm, if_true]
  simp only [linked] at ha
  simp [ha]

/-- C18: for a table satisfying the placement invariant whose count is not `MAX_INT`,
bytes `s` of short-string length and a hash `h`, `addtostrt` (the object allocation
succeeding) returns a new object with content `s`, length `|s|` and hash `h`, which is
the head of bucket `h mod size` for the size after the call; that size is the old size
when the count was below it, and twice the old size when the count had reached it, the
size was at most `MAXSTRTB / 2` and the reallocation succeeded; the count grows by
exactly 1, the objects of the table are the new one and the ones present before, lookup
of `(s, h)` returns the new object, and every object present before is still found. -/
theorem addtostrt_inserts (e : Env) (g : global_State) (w : Process) (s : List Byte)
    (h : Nat) (hinv : TableInv g) (hsize : 0 < g.strt.size)
    (hlen : s.length ≤ LUAI_MAXSHORTLEN) (hobj : e.newobj_ok = true)
    (hmax : g.strt.nuse ≠ MAX_INT) :
    ∃ g' w' ts, addtostrt e g w s s.length h = some (g', w', ts) ∧
      ts.str = s ∧ ts.shrlen = s.length ∧ ts.hash = h ∧ ts.isglobal = 0 ∧ ts.addr = w.brk ∧
      (g'.strt.hash (lmod h g'.strt.size)).head? = some ts ∧
      g'.strt.nuse = g.strt.nuse + 1 ∧
      (g.strt.nuse < (g.strt.size : Int) → g'.strt.size = g.strt.size) ∧
      (g.strt.nuse ≥ (g.strt.size : Int) → g.strt.size ≤ MAXSTRTB / 2 →
        e.realloc_ok = true → g'.strt.size = g.strt.size * 2) ∧
      (g'.strt.size = g.strt.size ∨ g'.strt.size = g.strt.size * 2) ∧
      (entries g'.strt.hash g'.strt.size).Perm (ts :: entries g.strt.hash g.strt.size) ∧
      TableInv g' ∧
      (queryfromstrt g' s s.length h).2 = some ts ∧
      ∀ x ∈ entries g.strt.hash g.strt.size,
        Finds g' (entries g'.strt.hash g'.strt.size) x := by
  obtain ⟨k1, k2, k3, k4, _⟩ := grown_keeps e g hsize hinv
  have hpos : 0 < (grown e g).strt.size := by
    rcases k2 with k2 | k2 <;> rw [k2] <;> omega
  have hperm := (entries_linked (grown e g) h (strtobj (grown e g) w.brk h s s.length)
    hpos).trans (List.Perm.cons _ k3)
  have hinv' := tableInv_linked (grown e g) h (strtobj (grown e g) w.brk h s s.length) k4 rfl
  refine ⟨linked (grown e g) h (strtobj (grown e g) w.brk h s s.length),
    { w with brk := w.brk + 1 }, strtobj (grown e g) w.brk h s s.length,
    addtostrt_grown e g w s s.length h hobj hmax, List.take_length s, short_mod s hlen,
    rfl, rfl, rfl, ?_, ?_, ?_, ?_, k2, hperm, hinv', query_linked _ h _ s hlen, ?_⟩
  · simp [linked, setslot_same]
  · simp only [linked, k1]
  · intro hlt
    have : ¬ g.strt.nuse ≥ (g.strt.size : Int) := by omega
    simp [linked, grown, this]
  · intro hge hcap hok
    simp only [linked, grown, hge, hcap, if_true]
    rw [resize_grow_ok e g _ hok (by omega)]
  · intro x hx
    exact finds_of_placed _ _ hinv' (List.Perm.refl _) x
      (hperm.mem_iff.mpr (List.mem_cons_of_mem _ hx))

theorem tableInv_instanceTwo : TableInv instanceTwo := by
  unfold TableInv
  decide

/-- C18 at a concrete input: "b" with hash 1 is inserted into the full table of 2
buckets, which is doubled first. -/
theorem addtostrt_inserts_witness :
    ∃ g' w' ts, addtostrt envOk instanceTwo (processAt 3) [98] [98].length 1
        = some (g', w', ts) ∧
      ts.str = [98] ∧ ts.shrlen = [98].length ∧ ts.hash = 1 ∧ ts.isglobal = 0 ∧
      ts.addr = (processAt 3).brk ∧
      (g'.strt.hash (lmod 1 g'.strt.size)).head? = some ts ∧
      g'.strt.nuse = instanceTwo.strt.nuse + 1 ∧
      (instanceTwo.strt.nuse < (instanceTwo.strt.size : Int) →
        g'.strt.size = instanceTwo.strt.size) ∧
      (instanceTwo.strt.nuse ≥ (instanceTwo.strt.size : Int) →
        instanceTwo.strt.size ≤ MAXSTRTB / 2 →
        envOk.realloc_ok = true → g'.strt.size = instanceTwo.strt.size * 2) ∧
      (g'.strt.size = instanceTwo.strt.size ∨ g'.strt.size = instanceTwo.strt.size * 2) ∧
      (entries g'.strt.hash g'.strt.size).Perm
        (ts :: entries instanceTwo.strt.hash instanceTwo.strt.size) ∧
      TableInv g' ∧
      (queryfromstrt g' [98] [98].length 1).2 = some ts ∧
      ∀ x ∈ entries instanceTwo.strt.hash instanceTwo.strt.size,
        Finds g' (entries g'.strt.hash g'.strt.size) x :=
  addtostrt_inserts envOk instanceTwo (processAt 3) [98] 1 tableInv_instanceTwo
    (by decide) (by decide) rfl (by decide)

/-! ## Lookup in the instance table -/

theorem flip_white (m k : Nat) (hk : (24 : Nat).testBit k = true) (h : m &&& 2 ^ k ≠ 0) :
    (m ^^^ 24) &&& 2 ^ k = 0 := by
  have hm : m.testBit k = true := by
    by_contra hc
    apply h
    apply Nat.eq_of_testBit_eq
    intro i
    simp only [Nat.testBit_and, Nat.zero_testBit, Nat.testBit_two_pow]
    by_cases hi : k = i
    · subst hi; simp at hc; simp [hc]
    · simp [hi]
  apply Nat.eq_of_testBit_eq
  intro i
  simp only [Nat.testBit_and, Nat.testBit_xor, Nat.zero_testBit, Nat.testBit_two_pow]
  by_cases hi : k = i
  · subst hi
    simp [hm, hk]
  · simp [hi]

theorem resurrect_alive (g : global_State) (ts : TString)
    (hw : g.currentwhite = 8 ∨ g.currentwhite = 16) : isdead g (resurrect g ts) = false := by
  unfold resurrect
  by_cases hd : isdead g ts = true
  · simp only [hd, if_true]
    simp only [isdead, bne_iff_ne, ne_eq] at hd
    rcases hw with hw | hw
    · rw [hw] at hd
      have h16 : (8 : Nat) ^^^ WHITEBITS = 2 ^ 4 := by decide
      rw [h16] at hd
      have h0 : (ts.marked ^^^ 24) &&& 16 = 0 := flip_white ts.marked 4 (by decide) hd
      have h16b : (8 : Nat) ^^^ 24 = 16 := by decide
      simp [isdead, changewhite, hw, WHITEBITS, h16b, h0]
    · rw [hw] at hd
      have h8 : (16 : Nat) ^^^ WHITEBITS = 2 ^ 3 := by decide
      rw [h8] at hd
      have h0 : (ts.marked ^^^ 24) &&& 8 = 0 := flip_white ts.marked 3 (by decide) hd
      have h8b : (16 : Nat) ^^^ 24 = 8 := by decide
      simp [isdead, changewhite, hw, WHITEBITS, h8b, h0]
  · simp only [Bool.not_eq_true] at hd
    simp [hd]

theorem resurrect_marked (g : global_State) (ts : TString) :
    resurrect g ts = { ts with marked := (resurrect g ts).marked } := by
  unfold resurrect changewhite
  split <;> rfl

theorem querychain_split (g : global_State) (str : List Byte) (l : Nat) (c : List TString)
    (ts0 : TString) (hmem : ts0 ∈ c) (hmatch : eqshrstr str l ts0 = true) :
    ∃ pre ts1 post, c = pre ++ ts1 :: post ∧ (∀ x ∈ pre, eqshrstr str l x = false) ∧
      eqshrstr str l ts1 = true ∧
      querychain g str l c = (pre ++ resurrect g ts1 :: post, some (resurrect g ts1)) := by
  induction c with
  | nil => exact absurd hmem (List.not_mem_nil _)
  | cons x c ih =>
    by_cases hx : eqshrstr str l x = true
    · refine ⟨[], x, c, rfl, fun y hy => absurd hy (List.not_mem_nil _), hx, ?_⟩
      by_cases hd : isdead g x = true
      · simp [querychain, hx, hd, resurrect]
      · simp only [Bool.not_eq_true] at hd
        simp [querychain, hx, hd, resurrect]
    · simp only [Bool.not_eq_true] at hx
      have hmem2 : ts0 ∈ c := by
        rcases List.mem_cons.mp hmem with h | h
        · subst h; rw [hx] at hmatch; exact Bool.noConfusion hmatch
        · exact h
      obtain ⟨pre, ts1, post, h1, h2, h3, h4⟩ := ih hmem2
      refine ⟨x :: pre, ts1, post, by rw [h1]; rfl, ?_, h3, ?_⟩
      · intro y hy
        rcases List.mem_cons.mp hy with h | h
        · subst h; exact hx
        · exact h2 y h
      · simp [querychain, hx, h4]

/-- C17: `queryfromstrt` on a miss (no object of bucket `hash mod size` has the length
and content of the input) returns nothing and leaves the whole instance as it is; on a
hit it returns the first object of that bucket whose length and content equal the
input, resurrected if it was dead, and the instance afterwards differs only in that
object: the chain is the old chain with the object replaced by the returned one, which
differs from it at most in its colour and which is not dead (the current white being one
of the two whites); the other buckets, the count and the size are unchanged. -/
theorem queryfromstrt_frame (g : global_State) (str : List Byte) (l h : Nat)
    (hw : g.currentwhite = 8 ∨ g.currentwhite = 16) :
    ((∀ ts ∈ g.strt.hash (lmod h g.strt.size), eqshrstr str l ts = false) →
      queryfromstrt g str l h = (g, none)) ∧
    (∀ ts0 ∈ g.strt.hash (lmod h g.strt.size), eqshrstr str l ts0 = true →
      ∃ pre ts1 post, g.strt.hash (lmod h g.strt.size) = pre ++ ts1 :: post ∧
        (∀ x ∈ pre, eqshrstr str l x = false) ∧ eqshrstr str l ts1 = true ∧
        queryfromstrt g str l h =
          ({ g with strt :=
              { hash := setslot g.strt.hash (lmod h g.strt.size)
                  (pre ++ resurrect g ts1 :: post)
                nuse := g.strt.nuse
                size := g.strt.size } },
            some (resurrect g ts1)) ∧
        resurrect g ts1 = { ts1 with marked := (resurrect g ts1).marked } ∧
        (isdead g ts1 = false → resurrect g ts1 = ts1) ∧
        (isdead g ts1 = true → resurrect g ts1 = changewhite ts1) ∧
        isdead g (resurrect g ts1) = false) := by
  refine ⟨queryfromstrt_miss g str l h, ?_⟩
  intro ts0 hmem hmatch
  obtain ⟨pre, ts1, post, h1, h2, h3, h4⟩ := querychain_split g str l _ ts0 hmem hmatch
  refine ⟨pre, ts1, post, h1, h2, h3, ?_, resurrect_marked g ts1, ?_, ?_,
    resurrect_alive g ts1 hw⟩
  · simp only [queryfromstrt, h4]
  · intro hd; simp [resurrect, hd]
  · intro hd; simp [resurrect, hd]

/-- C17 at a concrete input: lookup of "b" in a bucket that holds "a" and then a dead
"b". -/
theorem queryfromstrt_frame_witness :
    ((∀ ts ∈ instanceDead.strt.hash (lmod 1 instanceDead.strt.size),
        eqshrstr [98] 1 ts = false) →
      queryfromstrt instanceDead [98] 1 1 = (instanceDead, none)) ∧
    (∀ ts0 ∈ instanceDead.strt.hash (lmod 1 instanceDead.strt.size),
      eqshrstr [98] 1 ts0 = true →
      ∃ pre ts1 post, instanceDead.strt.hash (lmod 1 instanceDead.strt.size)
          = pre ++ ts1 :: post ∧
        (∀ x ∈ pre, eqshrstr [98] 1 x = false) ∧ eqshrstr [98] 1 ts1 = true ∧
        queryfromstrt instanceDead [98] 1 1 =
          ({ instanceDead with strt :=
              { hash := setslot instanceDead.strt.hash (lmod 1 instanceDead.strt.size)
                  (pre ++ resurrect instanceDead ts1 :: post)
                nuse := instanceDead.strt.nuse
                size := instanceDead.strt.size } },
            some (resurrect instanceDead ts1)) ∧
        resurrect instanceDead ts1
          = { ts1 with marked := (resurrect instanceDead ts1).marked } ∧
        (isdead instanceDead ts1 = false → resurrect instanceDead ts1 = ts1) ∧
        (isdead instanceDead ts1 = true → resurrect instanceDead ts1 = changewhite ts1) ∧
        isdead instanceDead (resurrect instanceDead ts1) = false) :=
  queryfromstrt_frame instanceDead [98] 1 1 (Or.inl rfl)

/-! ## Insert-or-get in the shared map -/

theorem eqssmstr_iff (h : Nat) (str : List Byte) (l : Nat) (ts : TString) :
    eqssmstr h str l ts = true ↔
      ts.hash = h ∧ ts.shrlen = l ∧ str.take l = ts.str.take l := by
  simp [eqssmstr, memcmp0, and_assoc]

/-- C16: `addtossm` (its `malloc` succeeding), for every state of the shared map, hash
`h` and bytes: when slot `h mod 65536` holds an object with the same hash, length and
content, the first such object of the chain is returned, every chain and the budget are
unchanged and the candidate is freed; otherwise the candidate becomes the head of slot
`h mod 65536` with the old chain as its tail, all other slots and the budget are
unchanged, and the candidate is returned. -/
theorem addtossm_insert_or_get (e : Env) (w : Process) (h : Nat) (str : List Byte) (l : Nat)
    (hm : e.malloc_ok = true) :
    (∀ ts0 ∈ w.SSM.h (HASH_NODE h),
      (ts0.hash = h ∧ ts0.shrlen = l ∧ str.take l = ts0.str.take l) →
      ∃ ts1, ts1 ∈ w.SSM.h (HASH_NODE h) ∧
        (ts1.hash = h ∧ ts1.shrlen = l ∧ str.take l = ts1.str.take l) ∧
        (w.SSM.h (HASH_NODE h)).find? (eqssmstr h str l) = some ts1 ∧
        addtossm e w h str l
          = some ({ SSM := w.SSM, brk := w.brk + 1, freed := w.brk :: w.freed }, ts1)) ∧
    ((∀ ts ∈ w.SSM.h (HASH_NODE h),
        ¬ (ts.hash = h ∧ ts.shrlen = l ∧ str.take l = ts.str.take l)) →
      ∃ w', addtossm e w h str l = some (w', ssmobj w.brk h str l) ∧
        w'.SSM.h (HASH_NODE h) = ssmobj w.brk h str l :: w.SSM.h (HASH_NODE h) ∧
        (∀ j, j ≠ HASH_NODE h → w'.SSM.h j = w.SSM.h j) ∧
        w'.SSM.n = w.SSM.n ∧ w'.freed = w.freed ∧
        (ssmobj w.brk h str l).hash = h ∧ (ssmobj w.brk h str l).shrlen = l % 256 ∧
        (ssmobj w.brk h str l).str = str.take l ∧ (ssmobj w.brk h str l).isglobal = 1) := by
  constructor
  · intro ts0 hmem hmatch
    have hsome : ((w.SSM.h (HASH_NODE h)).find? (eqssmstr h str l)).isSome = true :=
      List.find?_isSome.mpr ⟨ts0, hmem, (eqssmstr_iff h str l ts0).mpr hmatch⟩
    obtain ⟨ts1, h1⟩ := Option.isSome_iff_exists.mp hsome
    exact ⟨ts1, List.mem_of_find?_eq_some h1,
      (eqssmstr_iff h str l ts1).mp (List.find?_some h1), h1, addtossm_old e w h str l ts1 hm h1⟩
  · intro hnone
    have hf : (w.SSM.h (HASH_NODE h)).find? (eqssmstr h str l) = none := by
      rw [List.find?_eq_none]
      intro ts hts hmatch
      exact hnone ts hts ((eqssmstr_iff h str l ts).mp hmatch)
    refine ⟨_, addtossm_new e w h str l hm hf, ?_, ?_, rfl, rfl, rfl, rfl, rfl, rfl⟩
    · simp [setslot_same]
    · intro j hj
      simp [setslot_other _ _ _ _ hj]

/-- C16 at a concrete input: "foo" is added to a shared map that holds "foo". -/
theorem addtossm_insert_or_get_witness :
    (∀ ts0 ∈ processFoo.SSM.h (HASH_NODE (luaS_hash strFoo 3 0)),
      (ts0.hash = luaS_hash strFoo 3 0 ∧ ts0.shrlen = 3 ∧ strFoo.take 3 = ts0.str.take 3) →
      ∃ ts1, ts1 ∈ processFoo.SSM.h (HASH_NODE (luaS_hash strFoo 3 0)) ∧
        (ts1.hash = luaS_hash strFoo 3 0 ∧ ts1.shrlen = 3 ∧
          strFoo.take 3 = ts1.str.take 3) ∧
        (processFoo.SSM.h (HASH_NODE (luaS_hash strFoo 3 0))).find?
          (eqssmstr (luaS_hash strFoo 3 0) strFoo 3) = some ts1 ∧
        addtossm envOk processFoo (luaS_hash strFoo 3 0) strFoo 3
          = some ({ SSM := processFoo.SSM, brk := processFoo.brk + 1,
                    freed := processFoo.brk :: processFoo.freed }, ts1)) ∧
    ((∀ ts ∈ processFoo.SSM.h (HASH_NODE (luaS_hash strFoo 3 0)),
        ¬ (ts.hash = luaS_hash strFoo 3 0 ∧ ts.shrlen = 3 ∧
          strFoo.take 3 = ts.str.take 3)) →
      ∃ w', addtossm envOk processFoo (luaS_hash strFoo 3 0) strFoo 3
          = some (w', ssmobj processFoo.brk (luaS_hash strFoo 3 0) strFoo 3) ∧
        w'.SSM.h (HASH_NODE (luaS_hash strFoo 3 0))
          = ssmobj processFoo.brk (luaS_hash strFoo 3 0) strFoo 3
              :: processFoo.SSM.h (HASH_NODE (luaS_hash strFoo 3 0)) ∧
        (∀ j, j ≠ HASH_NODE (luaS_hash strFoo 3 0) → w'.SSM.h j = processFoo.SSM.h j) ∧
        w'.SSM.n = processFoo.SSM.n ∧ w'.freed = processFoo.freed ∧
        (ssmobj processFoo.brk (luaS_hash strFoo 3 0) strFoo 3).hash
          = luaS_hash strFoo 3 0 ∧
        (ssmobj processFoo.brk (luaS_hash strFoo 3 0) strFoo 3).shrlen = 3 % 256 ∧
        (ssmobj processFoo.brk (luaS_hash strFoo 3 0) strFoo 3).str = strFoo.take 3 ∧
        (ssmobj processFoo.brk (luaS_hash strFoo 3 0) strFoo 3).isglobal = 1) :=
  addtossm_insert_or_get envOk processFoo (luaS_hash strFoo 3 0) strFoo 3 rfl

/-! ## The object returned by the interning protocol -/

theorem intern_result_cases (e : Env) (g : global_State) (w : Process) (s : List Byte)
    (l : Nat) (g' : global_State) (w' : Process) (ts : TString)
    (hr : internshrstr e g w s l = some (g', w', ts)) :
    (∃ ts1, eqshrstr s l ts1 = true ∧ ts = resurrect g ts1) ∨
    (∃ h, eqssmstr h s l ts = true) ∨
    ts = ssmobj w.brk (luaS_hash s l 0) s l ∨
    (∃ g1 : global_State, ts = strtobj g1 w.brk (luaS_hash s l g.seed) s l) := by
  unfold internshrstr at hr
  simp only at hr
  split at hr
  · rename_i g1 t hq
    simp only [Option.some.injEq, Prod.mk.injEq] at hr
    obtain ⟨_, _, hts⟩ := hr
    subst hts
    have h2 : (queryfromstrt g s l (luaS_hash s l g.seed)).2 = some t := by rw [hq]
    simp only [queryfromstrt, querychain_snd, Option.map_eq_some'] at h2
    obtain ⟨ts1, h3, h4⟩ := h2
    exact Or.inl ⟨ts1, List.find?_some h3, h4.symm⟩
  · split at hr
    · rename_i t hq
      simp only [Option.some.injEq, Prod.mk.injEq] at hr
      obtain ⟨_, _, hts⟩ := hr
      subst hts
      exact Or.inr (Or.inl ⟨_, List.find?_some hq⟩)
    · split at hr
      · simp only [addtossm, newstring, Option.map_eq_some'] at hr
        obtain ⟨r, hr1, hr2⟩ := hr
        obtain ⟨r0, hr0, hr1⟩ := hr1
        split at hr0
        · injection hr0 with hr0
          subst hr0
          simp only at hr1
          split at hr1
          · rename_i t hf
            subst hr1
            simp only [Prod.mk.injEq] at hr2
            obtain ⟨_, _, hts⟩ := hr2
            subst hts
            exact Or.inr (Or.inl ⟨_, List.find?_some hf⟩)
          · subst hr1
            simp only [Prod.mk.injEq] at hr2
            obtain ⟨_, _, hts⟩ := hr2
            subst hts
            exact Or.inr (Or.inr (Or.inl rfl))
        · exact Option.noConfusion hr0
      · obtain ⟨g1, _, _, _, hts⟩ := addtostrt_cases _ _ _ _ _ _ _ _ _ hr
        exact Or.inr (Or.inr (Or.inr ⟨g1, hts⟩))

theorem intern_returns (e : Env) (g : global_State) (w : Process) (s : List Byte) (l : Nat)
    (hm : e.malloc_ok = true) (hmem : NoMemError e g) :
    ∃ g' w' ts, internshrstr e g w s l = some (g', w', ts) := by
  unfold internshrstr
  simp only
  cases hq : queryfromstrt g s l (luaS_hash s l g.seed) with
  | mk g1 r =>
    cases r with
    | some t => exact ⟨_, _, _, rfl⟩
    | none =>
      simp only
      cases hp : queryfromssm w (luaS_hash s l g.seed) s l with
      | some t => exact ⟨_, _, _, rfl⟩
      | none =>
        simp only
        have hg1 : g1 = g := by
          have h2 : (queryfromstrt g s l (luaS_hash s l g.seed)).2 = none := by rw [hq]
          simp only [queryfromstrt, querychain_snd, Option.map_eq_none'] at h2
          have h3 := queryfromstrt_miss g s l (luaS_hash s l g.seed)
            (fun ts hts => by
              have := (List.find?_eq_none.mp h2) ts hts
              simpa using this)
          rw [hq] at h3
          injection h3
        subst hg1
        split
        · simp only [addtossm, newstring, hm, if_true, Option.map_some']
          exact ⟨_, _, _, rfl⟩
        · obtain ⟨g2, hadd⟩ := addtostrt_some e g1 w s l (luaS_hash s l g1.seed) hmem
          exact ⟨_, _, _, hadd⟩

/-- C19: for every instance, every shared map, every budget and every byte sequence
`s` of short-string length, the object that `internshrstr` returns, whichever path
produced it, has length `|s|` and its content (the `shrlen` bytes behind `getstr`) is `s`
byte for byte; and the call does return when `malloc` succeeds and no memory error is
raised. -/
theorem intern_result_content (e : Env) (g : global_State) (w : Process) (s : List Byte)
    (hlen : s.length ≤ LUAI_MAXSHORTLEN) :
    (∀ g' w' ts, internshrstr e g w s s.length = some (g', w', ts) →
      ts.shrlen = s.length ∧ ts.str.take ts.shrlen = s ∧
      (ts.str.length = ts.shrlen → ts.str = s)) ∧
    (e.malloc_ok = true → NoMemError e g →
      ∃ g' w' ts, internshrstr e g w s s.length = some (g', w', ts)) := by
  refine ⟨?_, fun hm hmem => intern_returns e g w s s.length hm hmem⟩
  intro g' w' ts hr
  have key : ts.shrlen = s.length ∧ ts.str.take ts.shrlen = s := by
    rcases intern_result_cases e g w s s.length g' w' ts hr with
      ⟨ts1, h1, h2⟩ | ⟨h, h1⟩ | h1 | ⟨g1, h1⟩
    · obtain ⟨_, _, h3, h4, _⟩ := resurrect_fields g ts1
      simp only [eqshrstr, memcmp0, Bool.and_eq_true, beq_iff_eq, List.take_length] at h1
      rw [h2, h3, h4, ← h1.1]
      exact ⟨rfl, h1.2.symm⟩
    · simp only [eqssmstr, memcmp0, Bool.and_eq_true, beq_iff_eq, List.take_length] at h1
      rw [h1.1.2]
      exact ⟨rfl, h1.2.symm⟩
    · subst h1
      simp [ssmobj, short_mod s hlen]
    · subst h1
      simp [strtobj, short_mod s hlen]
  refine ⟨key.1, key.2, ?_⟩
  intro hwf
  have := key.2
  rw [← hwf, List.take_length] at this
  exact this

/-- C19 at a concrete input: "foo" interned on an instance that holds it. -/
theorem intern_result_content_witness :
    (∀ g' w' ts, internshrstr envOk instanceFoo processFoo strFoo strFoo.length
        = some (g', w', ts) →
      ts.shrlen = strFoo.length ∧ ts.str.take ts.shrlen = strFoo ∧
      (ts.str.length = ts.shrlen → ts.str = strFoo)) ∧
    (envOk.malloc_ok = true → NoMemError envOk instanceFoo →
      ∃ g' w' ts, internshrstr envOk instanceFoo processFoo strFoo strFoo.length
        = some (g', w', ts)) :=
  intern_result_content envOk instanceFoo processFoo strFoo (by decide)

/-! ## Budget accounting -/

theorem intern_budget_step (e : Env) (g : global_State) (w : Process) (s : List Byte)
    (l : Nat) (g' : global_State) (w' : Process) (ts : TString)
    (hr : internshrstr e g w s l = some (g', w', ts)) :
    w'.SSM = w.SSM ∨
    (0 < w.SSM.n ∧ w'.SSM.n = w.SSM.n - 1 ∧
      (w'.SSM.h = w.SSM.h ∨
        w'.SSM.h = setslot w.SSM.h (HASH_NODE (luaS_hash s l 0))
          (ssmobj w.brk (luaS_hash s l 0) s l :: w.SSM.h (HASH_NODE (luaS_hash s l 0))))) := by
  unfold internshrstr at hr
  simp only at hr
  split at hr
  · simp only [Option.some.injEq, Prod.mk.injEq] at hr
    obtain ⟨_, hw, _⟩ := hr
    subst hw; exact Or.inl rfl
  · split at hr
    · simp only [Option.some.injEq, Prod.mk.injEq] at hr
      obtain ⟨_, hw, _⟩ := hr
      subst hw; exact Or.inl rfl
    · split at hr
      · rename_i hn
        simp only [addtossm, newstring, Option.map_eq_some'] at hr
        obtain ⟨r, hr1, hr2⟩ := hr
        obtain ⟨r0, hr0, hr1⟩ := hr1
        split at hr0
        · injection hr0 with hr0
          subst hr0
          simp only at hr1
          split at hr1
          · subst hr1
            simp only [Prod.mk.injEq] at hr2
            obtain ⟨_, hw, _⟩ := hr2
            subst hw
            exact Or.inr ⟨hn, rfl, Or.inl rfl⟩
          · subst hr1
            simp only [Prod.mk.injEq] at hr2
            obtain ⟨_, hw, _⟩ := hr2
            subst hw
            exact Or.inr ⟨hn, rfl, Or.inr rfl⟩
        · exact Option.noConfusion hr0
      · have := addtostrt_pool _ _ _ _ _ _ _ _ _ hr
        subst this; exact Or.inl rfl

theorem intern_count_step (e : Env) (g : global_State) (w : Process) (s : List Byte)
    (l : Nat) (g' : global_State) (w' : Process) (ts : TString)
    (hr : internshrstr e g w s l = some (g', w', ts)) :
    (w'.SSM.n = w.SSM.n ∧ ssmcount w' = ssmcount w) ∨
    (0 < w.SSM.n ∧ w'.SSM.n = w.SSM.n - 1 ∧ ssmcount w' ≤ ssmcount w + 1) := by
  rcases intern_budget_step e g w s l g' w' ts hr with h | ⟨h1, h2, h3⟩
  · exact Or.inl ⟨by rw [h], ssmcount_congr _ _ h⟩
  · refine Or.inr ⟨h1, h2, ?_⟩
    rcases h3 with h3 | h3
    · simp only [ssmcount, h3]; omega
    · have ht := total_setslot List.length w.SSM.h (HASH_NODE (luaS_hash s l 0))
        (ssmobj w.brk (luaS_hash s l 0) s l :: w.SSM.h (HASH_NODE (luaS_hash s l 0)))
        SHRSTR_SLOT (HASH_NODE_lt _)
      simp only [ssmcount, h3, List.length_cons] at ht ⊢
      omega

theorem expandssm_exact (w : Process) (n : Int) (h0 : 0 ≤ w.SSM.n + n)
    (h1 : w.SSM.n + n ≤ (MAX_INT : Int)) :
    (luaS_expandssm w n).SSM.n = w.SSM.n + n ∧ (luaS_expandssm w n).SSM.h = w.SSM.h := by
  refine ⟨?_, rfl⟩
  simp only [luaS_expandssm, MAX_INT] at h1 ⊢
  norm_num at h1 ⊢
  omega

theorem budgetRun_inv (b : Int) (w : Process) (G : Int) (hb : 0 ≤ b)
    (hrun : BudgetRun b w G) (hG : G ≤ (MAX_INT : Int)) :
    0 ≤ w.SSM.n ∧ (ssmcount w : Int) + w.SSM.n ≤ G := by
  induction hrun with
  | start brk freed =>
    refine ⟨hb, ?_⟩
    have : ssmcount { SSM := { h := fun _ => [], n := b }, brk := brk, freed := freed } = 0 :=
      total_empty List.length rfl _
    rw [this]; simp
  | @intern w0 G0 e g s g' w' ts _ _ hstep ih =>
    have ih := ih hG
    rcases intern_count_step _ _ _ _ _ _ _ _ hstep with ⟨h1, h2⟩ | ⟨h1, h2, h3⟩
    · rw [h1, h2]; exact ih
    · rw [h2]
      have : (ssmcount w' : Int) ≤ (ssmcount w0 : Int) + 1 := by exact_mod_cast h3
      omega
  | @expand w0 G0 n _ hn hn2 ih =>
    have ih := ih (by omega)
    obtain ⟨h1, h2⟩ := expandssm_exact w0 n (by omega) (by omega)
    have hc : ssmcount (luaS_expandssm w0 n) = ssmcount w0 := by
      simp only [ssmcount, h2]
    rw [h1, hc]
    omega

/-- C20 as stated fails: starting from an empty shared map with the budget
`b = 2147483647 ≥ 0`, the single call `luaS_expandssm (1)` (with `1 ≥ 0`) leaves a
remaining budget of `-2147483648`: the counter is an `int` and the atomic addition
wraps. -/
theorem budget_goes_negative :
    (0 : Int) ≤ 2147483647 ∧
    BudgetRun 2147483647 (luaS_expandssm (freshProcess 2147483647) 1) (2147483647 + 1) ∧
    (luaS_expandssm (freshProcess 2147483647) 1).SSM.n = -2147483648 ∧
    (luaS_expandssm (freshProcess 2147483647) 1).SSM.n < 0 := by
  refine ⟨by decide, BudgetRun.expand 1 (BudgetRun.start 0 []) (by decide) (by decide), ?_, ?_⟩
  · decide
  · decide

/-- C20, amended: in a sequential run that starts from an empty shared map with a budget
`b ≥ 0` and consists of interning calls and `luaS_expandssm (n)` calls with `n ≥ 0`, as
long as `b` plus the sum of all expansions does not exceed `MAX_INT` (the `int` counter
does not wrap), the remaining budget is never negative and the number of objects in the
shared map never exceeds `b` plus the sum of all expansions minus the remaining budget;
and an interning call changes the budget only by decrementing it by exactly 1, and only
when it was positive before the call. -/
theorem budget_accounting (b : Int) (w : Process) (G : Int) (hb : 0 ≤ b)
    (hrun : BudgetRun b w G) (hG : G ≤ (MAX_INT : Int)) :
    0 ≤ w.SSM.n ∧ (ssmcount w : Int) ≤ G - w.SSM.n ∧
    (∀ (e : Env) (g : global_State) (s : List Byte) (g' : global_State) (w' : Process)
      (ts : TString), internshrstr e g w s s.length = some (g', w', ts) →
      w'.SSM.n = w.SSM.n ∨ (0 < w.SSM.n ∧ w'.SSM.n = w.SSM.n - 1)) := by
  obtain ⟨h1, h2⟩ := budgetRun_inv b w G hb hrun hG
  refine ⟨h1, by omega, ?_⟩
  intro e g s g' w' ts hr
  rcases intern_count_step e g w s s.length g' w' ts hr with ⟨h3, _⟩ | ⟨h3, h4, _⟩
  · exact Or.inl h3
  · exact Or.inr ⟨h3, h4⟩

theorem budgetRun_processExpanded : BudgetRun 1 processExpanded (1 + 2) :=
  BudgetRun.expand 2
    (BudgetRun.intern envOk (freshInstance 7) strBar _ _ _ (BudgetRun.start 0 []) (by decide)
      (intern_promoted envOk (freshInstance 7) (freshProcess 1) strBar (by decide)
        (strtAbsent_fresh 7 strBar) (poolAbsent_fresh 1 strBar) (by decide) rfl))
    (by decide) (by decide)

/-- C20 (amended) at a concrete input: budget 1, "bar" promoted, then an expansion
by 2. -/
theorem budget_accounting_witness :
    0 ≤ processExpanded.SSM.n ∧
    (ssmcount processExpanded : Int) ≤ (1 + 2) - processExpanded.SSM.n ∧
    (∀ (e : Env) (g : global_State) (s : List Byte) (g' : global_State) (w' : Process)
      (ts : TString), internshrstr e g processExpanded s s.length = some (g', w', ts) →
      w'.SSM.n = processExpanded.SSM.n ∨
        (0 < processExpanded.SSM.n ∧ w'.SSM.n = processExpanded.SSM.n - 1)) :=
  budget_accounting 1 processExpanded (1 + 2) (by decide) budgetRun_processExpanded
    (by decide)

/-! ## Long strings -/

/-- C14: for long strings `a` and `b` (each holding `lnglen` bytes of content),
`luaS_eqlngstr (a, b)` is true exactly when they are the same object (same address) or
have equal length and byte-for-byte equal content; the relation is reflexive and
symmetric. -/
theorem eqlngstr_iff (a b : TString) (ha : a.str.length = a.lnglen)
    (hb : b.str.length = b.lnglen) :
    (luaS_eqlngstr a b = true ↔ a.addr = b.addr ∨ (a.lnglen = b.lnglen ∧ a.str = b.str)) ∧
    luaS_eqlngstr a a = true ∧
    luaS_eqlngstr a b = luaS_eqlngstr b a := by
  refine ⟨?_, by simp [luaS_eqlngstr], ?_⟩
  · simp only [luaS_eqlngstr, memcmp0, Bool.or_eq_true, Bool.and_eq_true, beq_iff_eq]
    constructor
    · rintro (h | ⟨h1, h2⟩)
      · exact Or.inl h
      · refine Or.inr ⟨h1, ?_⟩
        have h3 : b.str.take a.lnglen = b.str := by rw [h1, ← hb, List.take_length]
        rw [← ha, List.take_length, ha, h3] at h2
        exact h2
    · rintro (h | ⟨h1, h2⟩)
      · exact Or.inl h
      · exact Or.inr ⟨h1, by rw [h2]⟩
  · rw [Bool.eq_iff_iff]
    simp only [luaS_eqlngstr, memcmp0, Bool.or_eq_true, Bool.and_eq_true, beq_iff_eq]
    constructor
    · rintro (h | ⟨h1, h2⟩)
      · exact Or.inl h.symm
      · exact Or.inr ⟨h1.symm, by rw [← h1, h2]⟩
    · rintro (h | ⟨h1, h2⟩)
      · exact Or.inl h.symm
      · exact Or.inr ⟨h1.symm, by rw [← h1, h2]⟩

/-- C14 at a concrete input: two long strings with the same 41 bytes at the addresses 7
and 8. -/
theorem eqlngstr_iff_witness :
    (luaS_eqlngstr (longobj 7 1) (longobj 8 1) = true ↔
      (longobj 7 1).addr = (longobj 8 1).addr ∨
        ((longobj 7 1).lnglen = (longobj 8 1).lnglen ∧ (longobj 7 1).str = (longobj 8 1).str)) ∧
    luaS_eqlngstr (longobj 7 1) (longobj 7 1) = true ∧
    luaS_eqlngstr (longobj 7 1) (longobj 8 1) = luaS_eqlngstr (longobj 8 1) (longobj 7 1) :=
  eqlngstr_iff (longobj 7 1) (longobj 8 1) (by decide) (by decide)

theorem hashlongstr_cached (ts : TString) (h1 : ts.extra ≠ 0) :
    luaS_hashlongstr ts = (ts, ts.hash) := by
  simp [luaS_hashlongstr, h1]

theorem hashcalls_cached (k : Nat) (ts : TString) (h1 : ts.extra ≠ 0) :
    hashcalls k ts = ts := by
  induction k with
  | zero => rfl
  | succ k ih => simp only [hashcalls, hashlongstr_cached ts h1, ih]

/-- C15: for a long string whose flag `extra` is 0, the first call of
`luaS_hashlongstr` returns `luaS_hash` over the content and the length, seeded with the
stored seed, stores it in the hash field and sets the flag, changing nothing else; after
any number `k + 1` of calls the object is the one left by the first call, and a further
call returns the same value and leaves the object unchanged. -/
theorem hashlongstr_memoizes (ts : TString) (h0 : ts.extra = 0) :
    (luaS_hashlongstr ts).2 = luaS_hash ts.str ts.lnglen ts.hash ∧
    (luaS_hashlongstr ts).1
      = { ts with hash := luaS_hash ts.str ts.lnglen ts.hash, extra := 1 } ∧
    ∀ k, hashcalls (k + 1) ts = (luaS_hashlongstr ts).1 ∧
      luaS_hashlongstr (hashcalls (k + 1) ts)
        = ((luaS_hashlongstr ts).1, (luaS_hashlongstr ts).2) := by
  have hfirst : luaS_hashlongstr ts
      = ({ ts with hash := luaS_hash ts.str ts.lnglen ts.hash, extra := 1 },
          luaS_hash ts.str ts.lnglen ts.hash) := by
    simp [luaS_hashlongstr, h0]
  refine ⟨by rw [hfirst], by rw [hfirst], ?_⟩
  intro k
  have hk : hashcalls (k + 1) ts = (luaS_hashlongstr ts).1 := by
    simp only [hashcalls]
    exact hashcalls_cached k _ (by rw [hfirst]; simp)
  refine ⟨hk, ?_⟩
  rw [hk, hfirst]
  exact hashlongstr_cached _ (by simp)

/-- C15 at a concrete input: a fresh long string of 41 bytes created with seed 1. -/
theorem hashlongstr_memoizes_witness :
    (luaS_hashlongstr (longobj 7 1)).2
      = luaS_hash (longobj 7 1).str (longobj 7 1).lnglen (longobj 7 1).hash ∧
    (luaS_hashlongstr (longobj 7 1)).1
      = { longobj 7 1 with
          hash := luaS_hash (longobj 7 1).str (longobj 7 1).lnglen (longobj 7 1).hash,
          extra := 1 } ∧
    ∀ k, hashcalls (k + 1) (longobj 7 1) = (luaS_hashlongstr (longobj 7 1)).1 ∧
      luaS_hashlongstr (hashcalls (k + 1) (longobj 7 1))
        = ((luaS_hashlongstr (longobj 7 1)).1, (luaS_hashlongstr (longobj 7 1)).2) :=
  hashlongstr_memoizes (longobj 7 1) rfl

end LString
